import Mathlib

/-!
# cos-customizer: disk layout reorganisation and OEM partition sealing

A shallow embedding of `tools/extend_oem_partition.go`, `tools/handle_disk_layout.go`,
`tools/partutil/minimize_partition.go` and `tools/seal_oem_partition.go`.

* Go strings are byte sequences (`GoString`); the functions of package `strings` that the
  source calls are embedded with their Go semantics, UTF-8 decoding included.
* External tools (`sfdisk`, `veritysetup`, `blkid`) and the files they act on are explicit
  state: a `World` maps a device path to its partition table, and the text a tool prints is an
  argument of the function that parses it.
* A Go function returning `error` returns `Except Err _`; a function that can also panic at
  run time (index out of range) returns `Outcome _`.
-/

set_option autoImplicit false

namespace CosCustomizer

/-! ## Go strings -/

/-- One byte of a Go string. -/
abbrev Byte := Fin 256

/-- A Go `string`: an arbitrary sequence of bytes. A `rune`, a Unicode code point, is a
natural number. -/
abbrev GoString := List Byte

/-- The bytes of an ASCII string literal of the source. -/
def lit (s : String) : GoString := s.toList.map (fun c => Fin.ofNat c.toNat)

/-- Embeds `strings.HasPrefix`. -/
def HasPrefix (s pre : GoString) : Bool := pre.isPrefixOf s

/-- Embeds `strings.Index`: the byte offset of the first occurrence of `sub` in `s`,
`none` standing for Go's `-1`. -/
def Index : GoString → GoString → Option Nat
  | [], sub => if sub.isPrefixOf [] then some 0 else none
  | b :: s, sub =>
    if sub.isPrefixOf (b :: s) then some 0 else (Index s sub).map (· + 1)

/-- Embeds `strings.Contains`. -/
def Contains (s sub : GoString) : Bool := (Index s sub).isSome

/-- Embeds `strings.Split(s, sep)` for a separator of one byte, the only kind the source
passes (newline, colon, comma, space, equals sign). The result is never empty. -/
def Split : GoString → Byte → List GoString
  | [], _ => [[]]
  | b :: s, sep =>
    if b = sep then [] :: Split s sep
    else
      match Split s sep with
      | [] => [[b]]
      | piece :: rest => (b :: piece) :: rest

/-- Embeds `strings.Join`. -/
def Join : List GoString → GoString → GoString
  | [], _ => []
  | [a], _ => a
  | a :: b :: rest, sep => a ++ sep ++ Join (b :: rest) sep

/-- The ASCII digit of a value below ten. -/
def digitByte (d : Nat) : Byte := Fin.ofNat (48 + d % 10)

/-- The decimal digits of `n` in front of `acc`; `fuel` bounds the recursion. -/
def formatAux : Nat → Nat → GoString → GoString
  | 0, _, acc => acc
  | fuel + 1, n, acc =>
    if n / 10 = 0 then digitByte n :: acc
    else formatAux fuel (n / 10) (digitByte n :: acc)

/-- Embeds `strconv.FormatUint(n, 10)` and the verb `%d` of an unsigned value. -/
def FormatUint (n : Nat) : GoString := formatAux (n + 1) n []

/-- Embeds `strconv.Itoa` on Go's `int`. -/
def Itoa (z : Int) : GoString :=
  if z < 0 then lit "-" ++ FormatUint z.natAbs else FormatUint z.natAbs

/-- The value of a run of ASCII digits, `none` when a byte is not a digit. -/
def parseDigits : GoString → Nat → Option Nat
  | [], acc => some acc
  | b :: s, acc =>
    if 48 ≤ b.val ∧ b.val ≤ 57 then parseDigits s (acc * 10 + (b.val - 48)) else none

/-- Parses an unsigned decimal number: at least one digit and nothing else. -/
def parseDecimal (s : GoString) : Option Nat :=
  if s = [] then none else parseDigits s 0

/-! ## Machine integers -/

/-- Reduction to Go's `uint64`. -/
def u64 (n : Nat) : Nat := n % 2 ^ 64

/-- Indexing a Go slice with an `int`: `none` is the run-time panic "index out of range". -/
def goIndex {α : Type} (xs : List α) (i : Int) : Option α :=
  if i < 0 then none else xs.get? i.toNat

/-! ## Errors and outcomes -/

/-- The failure kinds of the tools. -/
inductive Err
  | InvalidArgument
  | InvalidSizeFormat
  | PartitionNotFound
  | TableReadFailed
  | TableWriteFailed
  | SealToolFailed
  | BootConfigReadFailed
  | BootConfigWriteFailed
  | UnexpectedToolOutput
  | AttributeScanFailed
  | PartitionUUIDNotFound
  deriving DecidableEq, Repr

deriving instance DecidableEq for Except

/-- What a call of a Go function that may panic ends in. -/
inductive Outcome (α : Type)
  | ret (a : α)
  | fail (e : Err)
  | panic
  deriving DecidableEq, Repr

/-! ## Partition tables (package `partutil`)

Of package `partutil` only `MinimizePartition` is part of the sources at hand. The table
codec and the other primitives are modelled from the specification (§3, §4.1, §4.2, §4.3). -/

/-- The two fields of a partition entry the tools read or change, in sectors. -/
structure PartContent where
  Start : Nat
  Size : Nat
  deriving DecidableEq, Repr

/-- The last sector an entry covers. -/
def PartContent.lastSector (p : PartContent) : Nat := p.Start + p.Size - 1

/-- Modelled from the spec: one line of the textual table dump (§3 PartitionTable). The dump
format of the codec is missing from the sources; an entry line carries its device-qualified
name, its start and size, and the rest of the line, which is passed through unexamined. -/
inductive TableLine
  | entry (name : GoString) (content : PartContent) (attrs : GoString)
  | text (raw : GoString)
  deriving DecidableEq, Repr

/-- A partition table: the lines of its dump, in order. -/
abbrev PartitionTable := List TableLine

/-- A table-changing operation issued against a device. -/
inductive Op
  | move (disk : GoString) (partNum : Int) (dest : GoString)
  | extend (disk : GoString) (partNum : Int) (lastSector : Int)
  | minimize (disk : GoString) (partNum : Int)
  deriving DecidableEq, Repr

/-- The devices the tools act on: the current partition table of each device path (`none`
when the table tool cannot read it) and the table-changing operations issued so far. -/
structure World where
  tables : GoString → Option PartitionTable
  trace : List Op

/-- Writes table `t` back to device `disk` and records the operation. -/
def World.write (w : World) (disk : GoString) (t : PartitionTable) (op : Op) : World :=
  { tables := fun d => if d = disk then some t else w.tables d
    trace := w.trace ++ [op] }

/-- Modelled from the spec: `partutil.ConvertSizeToBytes` (§4.1, §8.1), missing from the
sources. A number with suffix B, K, M or G is a count of bytes, KiB, MiB or GiB; a bare
number is a count of 512-byte sectors; everything else is `InvalidSizeFormat`. The result is
a `uint64`. -/
def ConvertSizeToBytes (size : GoString) : Except Err Nat :=
  match size.getLast? with
  | none => .error .InvalidSizeFormat
  | some c =>
    let scaled (mult : Nat) (digits : GoString) : Except Err Nat :=
      match parseDecimal digits with
      | some n => if n < 2 ^ 64 then .ok (u64 (n * mult)) else .error .InvalidSizeFormat
      | none => .error .InvalidSizeFormat
    if c = 66 then scaled 1 size.dropLast
    else if c = 75 then scaled (2 ^ 10) size.dropLast
    else if c = 77 then scaled (2 ^ 20) size.dropLast
    else if c = 71 then scaled (2 ^ 30) size.dropLast
    else scaled 512 size

/-- Modelled from the spec: `partutil.PartNumIntToString`, missing from the sources: the
decimal partition number that is appended to the disk path to name the entry. -/
def PartNumIntToString (disk : GoString) (partNumInt : Int) : Except Err GoString :=
  if disk.length = 0 ∨ partNumInt ≤ 0 then .error .InvalidArgument
  else .ok (Itoa partNumInt)

/-- Modelled from the spec: `partutil.ReadPartitionTable`, missing from the sources: the
current table of the device, fetched afresh. -/
def ReadPartitionTable (w : World) (disk : GoString) : Except Err PartitionTable :=
  match w.tables disk with
  | some t => .ok t
  | none => .error .TableReadFailed

/-- Modelled from the spec: `partutil.ParsePartitionTable` (§4.2 `parseAndMutate`), missing
from the sources. The first entry named `partName` is handed to the callback `f` and
replaced by what `f` leaves in it; all other lines stay as they are. `σ` holds the variables
the Go closure captures. Without such an entry the result is `PartitionNotFound` when
`requireMatch` is set and the unchanged table otherwise. -/
def ParsePartitionTable {σ : Type} (table : PartitionTable) (partName : GoString)
    (requireMatch : Bool) (f : PartContent → σ → PartContent × σ) (s : σ) :
    Except Err (PartitionTable × σ) :=
  match table with
  | [] => if requireMatch then .error .PartitionNotFound else .ok ([], s)
  | TableLine.entry name p attrs :: rest =>
    if name = partName then
      .ok (TableLine.entry name (f p s).1 attrs :: rest, (f p s).2)
    else
      match ParsePartitionTable rest partName requireMatch f s with
      | .ok (rest', s') => .ok (TableLine.entry name p attrs :: rest', s')
      | .error e => .error e
  | TableLine.text raw :: rest =>
    match ParsePartitionTable rest partName requireMatch f s with
    | .ok (rest', s') => .ok (TableLine.text raw :: rest', s')
    | .error e => .error e

/-- The entry of partition `partNumInt` of `disk`, as the read-only accessors of §4.2 find
it: the same scan as `ParsePartitionTable`, with a callback that only looks. -/
def readEntry (w : World) (disk : GoString) (partNumInt : Int) : Except Err PartContent := do
  let partNum ← PartNumIntToString disk partNumInt
  let table ← ReadPartitionTable w disk
  let r ← ParsePartitionTable table (disk ++ partNum) true
    (fun p (_ : Option PartContent) => (p, some p)) none
  match r.2 with
  | some p => .ok p
  | none => .error .PartitionNotFound

/-- Modelled from the spec: `partutil.ReadPartitionStart` (§4.2 `readStart`), missing from
the sources. -/
def ReadPartitionStart (w : World) (disk : GoString) (partNumInt : Int) : Except Err Nat := do
  let p ← readEntry w disk partNumInt
  .ok p.Start

/-- Modelled from the spec: `partutil.ReadPartitionSize` (§4.2 `readSize`), missing from
the sources. -/
def ReadPartitionSize (w : World) (disk : GoString) (partNumInt : Int) : Except Err Nat := do
  let p ← readEntry w disk partNumInt
  .ok p.Size

/-- Modelled from the spec: the start sector a move destination denotes (§3 SizeSpec): a
leading plus or minus sign is an offset, in whole sectors of the given size, from the
current start; anything else is an absolute sector number. -/
def destStart (current : Nat) (dest : GoString) : Except Err Nat :=
  match dest with
  | [] => .error .InvalidSizeFormat
  | c :: size =>
    if c = 43 then do
      let bytes ← ConvertSizeToBytes size
      .ok (current + bytes / 512)
    else if c = 45 then do
      let bytes ← ConvertSizeToBytes size
      if bytes / 512 ≤ current then .ok (current - bytes / 512) else .error .InvalidSizeFormat
    else
      match parseDecimal dest with
      | some n => .ok n
      | none => .error .InvalidSizeFormat

/-- Modelled from the spec: `partutil.MovePartition` (§2.3 "move it (absolute or relative
start)"), missing from the sources: rewrites the start sector of the entry, keeping its size,
and writes the table back. -/
def MovePartition (w : World) (disk : GoString) (partNumInt : Int) (dest : GoString) :
    Except Err World := do
  let partNum ← PartNumIntToString disk partNumInt
  let table ← ReadPartitionTable w disk
  let p ← readEntry w disk partNumInt
  let newStart ← destStart p.Start dest
  let r ← ParsePartitionTable table (disk ++ partNum) true
    (fun q (_ : Unit) => ({ q with Start := newStart }, ())) ()
  .ok (w.write disk r.1 (Op.move disk partNumInt dest))

/-- Modelled from the spec: `partutil.ExtendPartition` (§2.3 "extend it to a given end
sector"), missing from the sources: rewrites the size of the entry so that its last sector
is `lastSector`, keeping its start. A last sector before the start leaves no partition, and
the table tool rejects it. -/
def ExtendPartition (w : World) (disk : GoString) (partNumInt : Int) (lastSector : Int) :
    Except Err World := do
  let partNum ← PartNumIntToString disk partNumInt
  let table ← ReadPartitionTable w disk
  let p ← readEntry w disk partNumInt
  if lastSector < (p.Start : Int) then .error .TableWriteFailed
  else
    let r ← ParsePartitionTable table (disk ++ partNum) true
      (fun q (_ : Unit) => ({ q with Size := (lastSector - (q.Start : Int) + 1).toNat }, ())) ()
    .ok (w.write disk r.1 (Op.extend disk partNumInt lastSector))

/-- Embeds `partutil.MinimizePartition` (tools/partutil/minimize_partition.go). The callback
records the start sector in `startSector` and sets the size to `minSize`; the function
returns the sector after the shrunk partition. The table tool is taken to accept the
rewritten table. -/
def MinimizePartition (w : World) (disk : GoString) (partNumInt : Int) :
    Except Err (World × Nat) :=
  let minSize : Nat := 4096
  if disk.length = 0 ∨ partNumInt ≤ 0 then .error .InvalidArgument
  else do
    let partNum ← PartNumIntToString disk partNumInt
    let partName := disk ++ partNum
    let table ← ReadPartitionTable w disk
    let r ← ParsePartitionTable table partName true
      (fun p (_ : Nat) => ({ p with Size := minSize }, p.Start)) 0
    let startSector := r.2
    .ok (w.write disk r.1 (Op.minimize disk partNumInt), u64 (startSector + minSize))

/-! ## The disk layout reorganizer (package `tools`) -/

/-- Embeds `tools.ExtendOEMPartition` (tools/extend_oem_partition.go). Log output is left
out; reading the table for the log can still fail. -/
def ExtendOEMPartition (w : World) (disk : GoString) (statePartNum oemPartNum : Int)
    (oemSize : GoString) : Except Err World :=
  let SECTOR : Nat := 512
  if disk.length ≤ 0 ∨ statePartNum ≤ 0 ∨ oemPartNum ≤ 0 then .error .InvalidArgument
  else do
    -- read new size of OEM partition.
    let newOEMSizeBytes ← ConvertSizeToBytes oemSize
    -- read original size of OEM partition.
    let oldOEMSize ← ReadPartitionSize w disk oemPartNum
    let oldOEMSizeBytes := u64 (oldOEMSize * SECTOR)
    if newOEMSizeBytes ≤ oldOEMSizeBytes then .ok w
    else do
      let _ ← ReadPartitionTable w disk
      -- record the original start sector of the stateful partition.
      let oldStartSector ← ReadPartitionStart w disk statePartNum
      -- move the stateful partition.
      let w1 ← MovePartition w disk statePartNum (lit "+" ++ oemSize)
      -- record the new start sector of the stateful partition.
      let newStartSector ← ReadPartitionStart w1 disk statePartNum
      -- move OEM partition to the original start sector of the stateful partition.
      let w2 ← MovePartition w1 disk oemPartNum (Itoa (oldStartSector : Int))
      -- extend the OEM partition.
      let w3 ← ExtendPartition w2 disk oemPartNum ((newStartSector : Int) - 1)
      let _ ← ReadPartitionTable w3 disk
      .ok w3

/-- Embeds `tools.HandleDiskLayout` (tools/handle_disk_layout.go). All sector and byte
counts are `uint64`. The source calls `partutil.MinimizePartition("/dev/sda3")`; with the
signature of minimize_partition.go that is partition 3 of `/dev/sda`. -/
def HandleDiskLayout (w : World) (disk : GoString) (statePartNum oemPartNum : Int)
    (oemSize : GoString) (reclaimSDA3 : Bool) : Except Err World :=
  if disk.length ≤ 0 ∨ statePartNum ≤ 0 ∨ oemPartNum ≤ 0 ∨ oemSize.length ≤ 0 then
    .error .InvalidArgument
  else do
    let _ ← ReadPartitionTable w disk
    -- read new size of OEM partition.
    let newOEMSizeBytes ← ConvertSizeToBytes oemSize
    -- read original size of OEM partition.
    let oldOEMSize ← ReadPartitionSize w disk oemPartNum
    let oldOEMSizeBytes := u64 (oldOEMSize <<< 8)
    let (w0, startPointSector) ←
      if reclaimSDA3 then do
        -- start point is the end of shrinked sda3 +1
        let r ← MinimizePartition w (lit "/dev/sda") 3
        Except.ok (r.1, u64 (r.2 + 1))
      else do
        -- start point is the original start sector of the stateful partition.
        let s ← ReadPartitionStart w disk statePartNum
        Except.ok (w, s)
    -- No need to resize the OEM partition.
    if newOEMSizeBytes ≤ oldOEMSizeBytes then
      if !reclaimSDA3 then .ok w0
      else do
        -- move the stateful partition to the start point.
        let w1 ← MovePartition w0 disk statePartNum (FormatUint startPointSector)
        let _ ← ReadPartitionTable w1 disk
        .ok w1
    else do
      -- leave enough space before the stateful partition for the OEM partition.
      let newStateStartSector := u64 (startPointSector + (newOEMSizeBytes >>> 8))
      -- move the stateful partition.
      let w1 ← MovePartition w0 disk statePartNum (FormatUint newStateStartSector)
      -- move OEM partition to the start point.
      let w2 ← MovePartition w1 disk oemPartNum (FormatUint startPointSector)
      -- extend the OEM partition.
      let w3 ← ExtendPartition w2 disk oemPartNum (u64 (newStateStartSector + (2 ^ 64 - 1)) : Nat)
      let _ ← ReadPartitionTable w3 disk
      .ok w3

/-! ## UTF-8 (package `unicode/utf8`) and white space -/

/-- The rune `utf8.RuneError`, U+FFFD, which decoding yields for an invalid byte. -/
def RuneError : Nat := 0xFFFD

/-- A continuation byte, `0x80` to `0xBF`. -/
def isCont (b : Byte) : Bool := decide (0x80 ≤ b.val ∧ b.val ≤ 0xBF)

/-- The table `acceptRanges` of package `utf8`, lower bounds: the least second byte that may
follow the first byte `b0` of an encoding. -/
def acceptLo (b0 : Byte) : Nat :=
  if b0.val = 0xE0 then 0xA0 else if b0.val = 0xF0 then 0x90 else 0x80

/-- The table `acceptRanges` of package `utf8`, upper bounds: the greatest second byte that
may follow the first byte `b0` of an encoding. -/
def acceptHi (b0 : Byte) : Nat :=
  if b0.val = 0xED then 0x9F else if b0.val = 0xF4 then 0x8F else 0xBF

/-- Embeds `utf8.DecodeRuneInString`: the first rune of `s` and its width in bytes. An
invalid or truncated encoding is `RuneError` of width 1, the empty string is `RuneError` of
width 0. Masks and shifts are written as remainders and products. -/
def DecodeRune : GoString → Nat × Nat
  | [] => (RuneError, 0)
  | b0 :: rest =>
    if b0.val < 0x80 then (b0.val, 1)
    else if 0xC2 ≤ b0.val ∧ b0.val ≤ 0xDF then
      match rest with
      | b1 :: _ =>
        if isCont b1 then (b0.val % 32 * 64 + b1.val % 64, 2) else (RuneError, 1)
      | [] => (RuneError, 1)
    else if 0xE0 ≤ b0.val ∧ b0.val ≤ 0xEF then
      match rest with
      | b1 :: b2 :: _ =>
        if acceptLo b0 ≤ b1.val ∧ b1.val ≤ acceptHi b0 ∧ isCont b2 then
          (b0.val % 16 * 4096 + b1.val % 64 * 64 + b2.val % 64, 3)
        else (RuneError, 1)
      | _ => (RuneError, 1)
    else if 0xF0 ≤ b0.val ∧ b0.val ≤ 0xF4 then
      match rest with
      | b1 :: b2 :: b3 :: _ =>
        if acceptLo b0 ≤ b1.val ∧ b1.val ≤ acceptHi b0 ∧ isCont b2 ∧ isCont b3 then
          (b0.val % 8 * 262144 + b1.val % 64 * 4096 + b2.val % 64 * 64 + b3.val % 64, 4)
        else (RuneError, 1)
      | _ => (RuneError, 1)
    else (RuneError, 1)

/-- Embeds `utf8.DecodeLastRuneInString`: the last rune of `s` and its width. The search
for the start of the rune looks back over at most `utf8.UTFMax` = 4 bytes. -/
def DecodeLastRune (s : GoString) : Nat × Nat :=
  let stop := s.length
  match s.getLast? with
  | none => (RuneError, 0)
  | some last =>
    if last.val < 0x80 then (last.val, 1)
    else
      let lim := stop - 4
      let runeStart (i : Nat) : Bool :=
        match s.get? i with
        | some b => !isCont b
        | none => false
      let start :=
        if 2 ≤ stop ∧ runeStart (stop - 2) then stop - 2
        else if 3 ≤ stop ∧ runeStart (stop - 3) then stop - 3
        else if 4 ≤ stop ∧ runeStart (stop - 4) then stop - 4
        else lim - 1
      let d := DecodeRune (s.drop start)
      if start + d.2 ≠ stop then (RuneError, 1) else d

/-- Embeds the conversion `[]rune(s)`; `fuel` bounds the number of runes. -/
def runesAux : Nat → GoString → List Nat
  | 0, _ => []
  | fuel + 1, s =>
    match s with
    | [] => []
    | _ :: _ => (DecodeRune s).1 :: runesAux fuel (s.drop (DecodeRune s).2)

/-- Embeds the conversion `[]rune(s)`. -/
def toRunes (s : GoString) : List Nat := runesAux s.length s

/-- Embeds `utf8.EncodeRune`: the UTF-8 encoding of a rune; a surrogate or a value above
U+10FFFF is encoded as `RuneError`. -/
def EncodeRune (r : Nat) : GoString :=
  if r ≤ 0x7F then [Fin.ofNat r]
  else if r ≤ 0x7FF then [Fin.ofNat (0xC0 + r / 64), Fin.ofNat (0x80 + r % 64)]
  else if 0x10FFFF < r ∨ (0xD800 ≤ r ∧ r ≤ 0xDFFF) then [0xEF, 0xBF, 0xBD]
  else if r ≤ 0xFFFF then
    [Fin.ofNat (0xE0 + r / 4096), Fin.ofNat (0x80 + r / 64 % 64), Fin.ofNat (0x80 + r % 64)]
  else
    [Fin.ofNat (0xF0 + r / 262144), Fin.ofNat (0x80 + r / 4096 % 64),
      Fin.ofNat (0x80 + r / 64 % 64), Fin.ofNat (0x80 + r % 64)]

/-- Embeds the conversion `string(runes)`. -/
def fromRunes (rs : List Nat) : GoString := rs.flatMap EncodeRune

/-- Embeds `unicode.IsSpace`: the code points with the property White_Space. -/
def IsSpace (r : Nat) : Bool :=
  decide ((0x09 ≤ r ∧ r ≤ 0x0D) ∨ r = 0x20 ∨ r = 0x85 ∨ r = 0xA0 ∨ r = 0x1680 ∨
    (0x2000 ≤ r ∧ r ≤ 0x200A) ∨ r = 0x2028 ∨ r = 0x2029 ∨ r = 0x202F ∨ r = 0x205F ∨
    r = 0x3000)

/-- Removes leading white space, rune by rune; `fuel` bounds the number of runes. -/
def trimLeftSpace : Nat → GoString → GoString
  | 0, s => s
  | fuel + 1, s =>
    match s with
    | [] => []
    | _ :: _ =>
      if IsSpace (DecodeRune s).1 then trimLeftSpace fuel (s.drop (DecodeRune s).2) else s

/-- Removes trailing white space, rune by rune; `fuel` bounds the number of runes. -/
def trimRightSpace : Nat → GoString → GoString
  | 0, s => s
  | fuel + 1, s =>
    match s with
    | [] => []
    | _ :: _ =>
      if IsSpace (DecodeLastRune s).1 then
        trimRightSpace fuel (s.take (s.length - (DecodeLastRune s).2))
      else s

/-- Embeds `strings.TrimSpace`: `s` without leading and trailing white space, in the
sense of Unicode. -/
def TrimSpace (s : GoString) : GoString :=
  trimRightSpace s.length (trimLeftSpace s.length s)

/-- Embeds `strings.Trim(s, cutset)` for a cutset of one ASCII byte: `s` without the leading
and trailing bytes equal to `c`. -/
def TrimByte (s : GoString) (c : Byte) : GoString :=
  ((s.dropWhile (· = c)).reverse.dropWhile (· = c)).reverse

/-! ## Sealing the OEM partition (tools/seal_oem_partition.go) -/

/-- Embeds `tools.veritysetup` from the point where the tool has run: `toolOutput` is what
the container wrote to its standard output, `none` when running it failed. The result is the
root hash and the salt, in this order. -/
def veritysetup (toolOutput : Option GoString) (_oemFSSize4K : Nat) :
    Outcome (GoString × GoString) :=
  match toolOutput with
  | none => .fail .SealToolFailed
  | some verityBuf =>
    let lines := Split verityBuf 10
    match goIndex lines ((lines.length : Int) - 2) with
    | none => .panic
    | some rootLine =>
      if !HasPrefix rootLine (lit "Root hash:") then .fail .UnexpectedToolOutput
      else
        match goIndex lines ((lines.length : Int) - 3) with
        | none => .panic
        | some saltLine =>
          if !HasPrefix saltLine (lit "Salt:") then .fail .UnexpectedToolOutput
          else
            match goIndex (Split rootLine 58) 1 with
            | none => .panic
            | some hash =>
              match goIndex (Split saltLine 58) 1 with
              | none => .panic
              | some salt => .ret (TrimSpace hash, TrimSpace salt)

/-- Embeds `tools.getPartUUID` from the point where `blkid` has run: `toolOutput` is what it
wrote to its standard output, `none` when running it failed. -/
def getPartUUID (toolOutput : Option GoString) (partName : GoString) : Outcome GoString :=
  match toolOutput with
  | none => .fail .AttributeScanFailed
  | some idBuf =>
    let scanLine (line : GoString) : Option (Outcome GoString) :=
      if !HasPrefix line partName then none
      else
        (Split line 32).findSome? fun content =>
          if !HasPrefix content (lit "PARTUUID") then none
          else
            match goIndex (Split content 61) 1 with
            | none => some .panic
            | some value => some (.ret (TrimByte value 34))
    match (Split idBuf 10).findSome? scanLine with
    | some r => r
    | none => .fail .PartitionUUIDNotFound

/-- The dm-verity table entry `appendDMEntryToGRUB` formats with `fmt.Sprintf`. -/
def entryString (name partUUID hash salt : GoString) (oemFSSize4K : Nat) : GoString :=
  -- from 4K blocks to 512B sectors
  let oemFSSizeSector := u64 (oemFSSize4K <<< 3)
  name ++ lit " none ro 1, 0 " ++ FormatUint oemFSSizeSector ++
    lit " verity payload=PARTUUID=" ++ partUUID ++ lit " hashtree=PARTUUID=" ++ partUUID ++
    lit " hashstart=" ++ FormatUint oemFSSizeSector ++ lit " alg=sha256 root_hexdigest=" ++
    hash ++ lit " salt=" ++ salt ++ lit "\""

/-- The body of the loop of `appendDMEntryToGRUB` over the lines of grub.cfg: what the line
is replaced with, `none` when the body panics (slice bounds or index out of range). -/
def patchLine (entry line : GoString) : Option GoString :=
  if !Contains line (lit "dm=") then some line
  else
    match Index line (lit "dm=") with
    | none => some line
    | some startPos =>
      if line.length < 1 then none
      else
        let lineBuf := toRunes (line.take (line.length - 1))
        -- add number of entries.
        if startPos + 4 < lineBuf.length then
          some (Join (Split (fromRunes (lineBuf.set (startPos + 4) 50)) 44 ++ [entry]) (lit ","))
        else none

/-- The loop of `appendDMEntryToGRUB` over the lines: every line is replaced by what the
body makes of it; a panic in any round ends the run. -/
def patchLines (entry : GoString) : List GoString → Option (List GoString)
  | [] => some []
  | line :: rest =>
    match patchLine entry line with
    | none => none
    | some line' =>
      match patchLines entry rest with
      | none => none
      | some rest' => some (line' :: rest')

/-- Embeds `tools.appendDMEntryToGRUB`. `readFile` is the file system as `ioutil.ReadFile`
sees it. The result is the path and the content handed to `ioutil.WriteFile`, which is taken
to succeed. -/
def appendDMEntryToGRUB (readFile : GoString → Option GoString)
    (grubPath name partUUID hash salt : GoString) (oemFSSize4K : Nat) :
    Outcome (GoString × GoString) :=
  let grubPath := grubPath ++ lit "/grub.cfg"
  let entry := entryString name partUUID hash salt oemFSSize4K
  match readFile grubPath with
  | none => .fail .BootConfigReadFailed
  | some grubContent =>
    let lines := Split grubContent 10
    -- add the entry to all kernel command lines containing "dm="
    match patchLines entry lines with
    | none => .panic
    | some lines' => .ret (grubPath, Join lines' (lit "\n"))

/-! ## Vocabulary of the statements -/

/-- The first entry named `name` in the table, if any. -/
def findEntry : PartitionTable → GoString → Option PartContent
  | [], _ => none
  | TableLine.entry n p _ :: rest, name => if n = name then some p else findEntry rest name
  | TableLine.text _ :: rest, name => findEntry rest name

/-- The table with the content of the first entry named `name` replaced by `q`. -/
def setEntry : PartitionTable → GoString → PartContent → PartitionTable
  | [], _, _ => []
  | TableLine.entry n p attrs :: rest, name, q =>
    if n = name then TableLine.entry n q attrs :: rest
    else TableLine.entry n p attrs :: setEntry rest name q
  | TableLine.text raw :: rest, name, q => TableLine.text raw :: setEntry rest name q

/-- The names of the entries of a table, in order. -/
def entryNames : PartitionTable → List GoString
  | [] => []
  | TableLine.entry n _ _ :: rest => n :: entryNames rest
  | TableLine.text _ :: rest => entryNames rest

/-- The contents of the entries of a table, in order. -/
def entryContents : PartitionTable → List PartContent
  | [] => []
  | TableLine.entry _ p _ :: rest => p :: entryContents rest
  | TableLine.text _ :: rest => entryContents rest

/-- A valid partition table (§3): no two entries share a name, and every partition holds at
least one sector. -/
def ValidTable (t : PartitionTable) : Prop :=
  (entryNames t).Nodup ∧ ∀ p ∈ entryContents t, 0 < p.Size

instance (t : PartitionTable) : Decidable (ValidTable t) := by
  unfold ValidTable; infer_instance

/-- White space only: every rune of `s` is white space. -/
def allSpace (s : GoString) : Bool := (toRunes s).all IsSpace

/-- No surrounding white space: `s` is empty, or neither its first nor its last rune is
white space. -/
def NoSurroundingSpace (s : GoString) : Prop :=
  s = [] ∨ (IsSpace (DecodeRune s).1 = false ∧ IsSpace (DecodeLastRune s).1 = false)

instance (s : GoString) : Decidable (NoSurroundingSpace s) := by
  unfold NoSurroundingSpace; infer_instance

/-! ## A sample device -/

/-- The device of the sample world. -/
def exDisk : GoString := lit "/dev/sda"

/-- A sample table: the OEM partition 8 lies right before the state partition 1. -/
def exTable : PartitionTable :=
  [ TableLine.text (lit "label: gpt"),
    TableLine.entry (lit "/dev/sda1") { Start := 8192, Size := 1000 } (lit "type=STATE"),
    TableLine.entry (lit "/dev/sda3") { Start := 20000, Size := 5000 } (lit "type=ROOT-A"),
    TableLine.entry (lit "/dev/sda8") { Start := 4096, Size := 4096 } (lit "type=OEM") ]

/-- A world holding the sample table on the sample device. -/
def exWorld : World :=
  { tables := fun d => if d = exDisk then some exTable else none, trace := [] }

/-- The sample world after extending the OEM partition to 4 MiB. -/
def exExtended : World :=
  match ExtendOEMPartition exWorld exDisk 1 8 (lit "4M") with
  | .ok w => w
  | .error _ => exWorld

/-- The world a run ends in; the starting world when the run fails. -/
def worldAfter (w : World) (r : Except Err World) : World :=
  match r with
  | .ok w' => w'
  | .error _ => w

/-! ## Sample tool output and boot configuration -/

/-- A report of `veritysetup format`, as in the comment of the source. -/
def exReport : GoString :=
  lit ("VERITY header information for /dev/sdb1\nUUID:            \t\nHash type:       \t0\n"
    ++ "Data blocks:     \t2048\nData block size: \t4096\nHash block size: \t4096\n"
    ++ "Hash algorithm:  \tsha256\nSalt:            \t9cd7ba29\nRoot hash:      \td6b862d0\n")

/-- A kernel command line of grub.cfg that already carries two device-mapper targets. -/
def exTwoTargets : GoString :=
  lit "linux /vmlinuz dm=\"2 vroot none ro 1,0 4077568 verity, oemroot none ro 1, 0 800 verity\""

/-- A grub.cfg of three lines, the second of which carries the marker. -/
def exGrub : GoString :=
  lit "set timeout=0\nlinux /vmlinuz root=/dev/dm-0 dm=\"1 vroot none ro 1,0 4077568 verity\"\n"

/-- What `appendDMEntryToGRUB` writes for the sample grub.cfg. -/
def exGrubPatched : GoString :=
  match appendDMEntryToGRUB (fun _ => some exGrub) (lit "/boot") (lit "oemroot")
    (lit "9db2ae75") (lit "d6b862d0") (lit "9cd7ba29") 100 with
  | .ret (_, written) => written
  | _ => []

/-- Output of `blkid`: lines of the sample in the comment of `getPartUUID`. The state
partition `/dev/sda1` carries no `PARTUUID`. -/
def exBlkid : GoString :=
  lit ("/dev/sda1: LABEL=\"STATE\" UUID=\"120991ff-4f12-43bf-b962-17325185121d\" TYPE=\"ext4\"\n"
    ++ "/dev/sda8: LABEL=\"OEM\" TYPE=\"ext4\" PARTLABEL=\"OEM\" PARTUUID=\"9db2ae75-98dc-5b4f-a38b-b3cb0b80b17f\"\n"
    ++ "/dev/sda12: SEC_TYPE=\"msdos\" LABEL=\"EFI-SYSTEM\" PARTUUID=\"aaea6e5e-bc5f-2542-b19a-66c2daa4d5a8\"\n"
    ++ "/dev/sda2: PARTLABEL=\"KERN-A\" PARTUUID=\"de4778dd-c187-8343-b86c-e122f9d234c0\"\n")

/-- Output of `blkid` in which the line of `/dev/sda11` stands before the line of
`/dev/sda1`, both with a `PARTUUID`. -/
def exBlkidOrder : GoString :=
  lit ("/dev/sda11: PARTLABEL=\"RWFW\" PARTUUID=\"682ef1a5-f7f6-7d42-a407-5d8ad0430fc1\"\n"
    ++ "/dev/sda1: LABEL=\"STATE\" PARTUUID=\"00ce255b-db42-1e47-a62b-735c7a9a7397\"\n")

/-- The value of a run of digits, read from the left. -/
theorem digitByte_val (n : Nat) : (digitByte n).val = 48 + n % 10 := by
  simp only [digitByte, Fin.ofNat, Fin.val_mk]
  omega

theorem parseDigits_formatAux (fuel n : Nat) (acc : GoString) (h : n < fuel) :
    parseDigits (formatAux fuel n acc) 0 = parseDigits acc n := by
  induction fuel generalizing n acc with
  | zero => omega
  | succ fuel ih =>
    unfold formatAux
    have hv := digitByte_val n
    have hd : 48 ≤ (digitByte n).val ∧ (digitByte n).val ≤ 57 := by
      rw [digitByte_val]; omega
    by_cases h0 : n / 10 = 0
    · simp only [h0, if_true, parseDigits, hd, and_self]
      congr 1
      omega
    · simp only [h0, if_false]
      rw [ih (n / 10) _ (by omega)]
      simp only [parseDigits, hd, and_self, if_true]
      congr 1
      omega

theorem formatAux_ne_nil (fuel n : Nat) (acc : GoString) (h : 0 < fuel) :
    formatAux fuel n acc ≠ [] := by
  induction fuel generalizing n acc with
  | zero => omega
  | succ fuel ih =>
    unfold formatAux
    by_cases h0 : n / 10 = 0
    · simp [h0]
    · simp only [h0, if_false]
      cases fuel with
      | zero => simp [formatAux]
      | succ k => exact ih _ _ (by omega)

theorem parseDecimal_FormatUint (n : Nat) : parseDecimal (FormatUint n) = some n := by
  unfold parseDecimal FormatUint
  rw [if_neg (formatAux_ne_nil _ _ _ (by omega)), parseDigits_formatAux _ _ _ (by omega)]
  rfl

theorem FormatUint_injective (a b : Nat) (h : FormatUint a = FormatUint b) : a = b := by
  have ha := parseDecimal_FormatUint a
  rw [h, parseDecimal_FormatUint] at ha
  exact (Option.some.inj ha).symm

theorem Itoa_injective (a b : Int) (ha : 0 < a) (hb : 0 < b) (h : Itoa a = Itoa b) : a = b := by
  unfold Itoa at h
  rw [if_neg (by omega), if_neg (by omega)] at h
  have := FormatUint_injective _ _ h
  omega

/-! ### The table codec -/

theorem ParsePartitionTable_eq {σ : Type} (t : PartitionTable) (name : GoString)
    (f : PartContent → σ → PartContent × σ) (s : σ) :
    ParsePartitionTable t name true f s =
      match findEntry t name with
      | some p => .ok (setEntry t name (f p s).1, (f p s).2)
      | none => .error .PartitionNotFound := by
  induction t with
  | nil => simp [ParsePartitionTable, findEntry]
  | cons l rest ih =>
    cases l with
    | entry n p attrs =>
      by_cases hn : n = name
      · simp [ParsePartitionTable, findEntry, setEntry, hn]
      · simp only [ParsePartitionTable, findEntry, setEntry, hn, if_false, ih]
        cases findEntry rest name <;> rfl
    | text raw =>
      simp only [ParsePartitionTable, findEntry, setEntry, ih]
      cases findEntry rest name <;> rfl

theorem findEntry_setEntry_same (t : PartitionTable) (name : GoString) (p q : PartContent)
    (h : findEntry t name = some p) : findEntry (setEntry t name q) name = some q := by
  induction t with
  | nil => simp [findEntry] at h
  | cons l rest ih =>
    cases l with
    | entry n p0 attrs =>
      by_cases hn : n = name
      · simp [findEntry, setEntry, hn]
      · simp only [findEntry, setEntry, hn, if_false] at h ⊢
        exact ih h
    | text raw =>
      simp only [findEntry, setEntry] at h ⊢
      exact ih h

theorem findEntry_setEntry_other (t : PartitionTable) (name other : GoString) (q : PartContent)
    (h : other ≠ name) : findEntry (setEntry t name q) other = findEntry t other := by
  induction t with
  | nil => simp [findEntry, setEntry]
  | cons l rest ih =>
    cases l with
    | entry n p0 attrs =>
      by_cases hn : n = name
      · have hno : ¬ name = other := fun e => h e.symm
        simp [findEntry, setEntry, hn, hno]
      · by_cases ho : n = other
        · subst ho
          simp [findEntry, setEntry, hn]
        · simp [findEntry, setEntry, hn, ho, ih]
    | text raw =>
      simp only [findEntry, setEntry]
      exact ih

theorem findEntry_size_pos (t : PartitionTable) (name : GoString) (p : PartContent)
    (hv : ValidTable t) (h : findEntry t name = some p) : 0 < p.Size := by
  apply hv.2
  clear hv
  induction t with
  | nil => simp [findEntry] at h
  | cons l rest ih =>
    cases l with
    | entry n p0 attrs =>
      by_cases hn : n = name
      · simp [findEntry, hn] at h
        simp [entryContents, h]
      · simp only [findEntry, hn, if_false] at h
        simp [entryContents, ih h]
    | text raw =>
      simp only [findEntry] at h
      simp [entryContents, ih h]

/-! ### The primitives -/

theorem readEntry_eq (w : World) (disk : GoString) (n : Int) :
    readEntry w disk n =
      if disk.length = 0 ∨ n ≤ 0 then .error .InvalidArgument
      else match w.tables disk with
        | none => .error .TableReadFailed
        | some t => match findEntry t (disk ++ Itoa n) with
          | some p => .ok p
          | none => .error .PartitionNotFound := by
  unfold readEntry PartNumIntToString ReadPartitionTable
  by_cases hc : disk.length = 0 ∨ n ≤ 0
  · simp only [hc, if_true]; rfl
  · simp only [hc, if_false]
    cases ht : w.tables disk with
    | none => rfl
    | some t =>
      simp only [bind, Except.bind, ParsePartitionTable_eq]
      cases findEntry t (disk ++ Itoa n) <;> rfl

theorem readEntry_ok (w : World) (disk : GoString) (n : Int) (p : PartContent)
    (h : readEntry w disk n = .ok p) :
    disk.length ≠ 0 ∧ 0 < n ∧ ∃ t, w.tables disk = some t ∧ findEntry t (disk ++ Itoa n) = some p := by
  rw [readEntry_eq] at h
  by_cases hc : disk.length = 0 ∨ n ≤ 0
  · rw [if_pos hc] at h; cases h
  · simp only [hc, if_false] at h
    cases ht : w.tables disk with
    | none => simp [ht] at h
    | some t =>
      simp only [ht] at h
      cases hf : findEntry t (disk ++ Itoa n) with
      | none => simp [hf] at h
      | some q =>
        simp only [hf, Except.ok.injEq] at h
        exact ⟨by omega, by omega, t, rfl, h ▸ hf⟩

theorem readEntry_of_find (w : World) (disk : GoString) (n : Int) (t : PartitionTable)
    (p : PartContent) (hd : disk.length ≠ 0) (hn : 0 < n) (ht : w.tables disk = some t)
    (hf : findEntry t (disk ++ Itoa n) = some p) : readEntry w disk n = .ok p := by
  rw [readEntry_eq, if_neg (by omega)]
  simp [ht, hf]

theorem write_tables_same (w : World) (disk : GoString) (t : PartitionTable) (op : Op) :
    (w.write disk t op).tables disk = some t := by
  simp [World.write]

theorem MovePartition_ok (w w' : World) (disk : GoString) (n : Int) (dest : GoString)
    (h : MovePartition w disk n dest = .ok w') :
    ∃ t p s, w.tables disk = some t ∧ findEntry t (disk ++ Itoa n) = some p ∧
      destStart p.Start dest = .ok s ∧
      w' = w.write disk (setEntry t (disk ++ Itoa n) { p with Start := s }) (Op.move disk n dest) := by
  unfold MovePartition at h
  cases hr : readEntry w disk n with
  | error e =>
    simp only [hr, bind, Except.bind] at h
    cases hp : PartNumIntToString disk n with
    | error e1 => simp [hp] at h
    | ok v =>
      cases hrt : ReadPartitionTable w disk with
      | error e2 => simp [hp, hrt] at h
      | ok t => simp [hp, hrt] at h
  | ok p =>
    obtain ⟨hd, hn, t, ht, hf⟩ := readEntry_ok _ _ _ _ hr
    have hp : PartNumIntToString disk n = .ok (Itoa n) := by
      unfold PartNumIntToString; rw [if_neg (by omega)]
    have hrt : ReadPartitionTable w disk = .ok t := by
      unfold ReadPartitionTable; simp [ht]
    simp only [hr, hp, hrt, bind, Except.bind, ParsePartitionTable_eq, hf] at h
    cases hs : destStart p.Start dest with
    | error e => simp [hs] at h
    | ok s =>
      simp only [hs, Except.ok.injEq] at h
      exact ⟨t, p, s, ht, hf, hs, h.symm⟩

theorem ExtendPartition_ok (w w' : World) (disk : GoString) (n : Int) (e : Int)
    (h : ExtendPartition w disk n e = .ok w') :
    ∃ t p, w.tables disk = some t ∧ findEntry t (disk ++ Itoa n) = some p ∧ (p.Start : Int) ≤ e ∧
      w' = w.write disk
        (setEntry t (disk ++ Itoa n) { p with Size := (e - (p.Start : Int) + 1).toNat })
        (Op.extend disk n e) := by
  unfold ExtendPartition at h
  cases hr : readEntry w disk n with
  | error e =>
    simp only [hr, bind, Except.bind] at h
    cases hp : PartNumIntToString disk n with
    | error e1 => simp [hp] at h
    | ok v =>
      cases hrt : ReadPartitionTable w disk with
      | error e2 => simp [hp, hrt] at h
      | ok t => simp [hp, hrt] at h
  | ok p =>
    obtain ⟨hd, hn, t, ht, hf⟩ := readEntry_ok _ _ _ _ hr
    have hp : PartNumIntToString disk n = .ok (Itoa n) := by
      unfold PartNumIntToString; rw [if_neg (by omega)]
    have hrt : ReadPartitionTable w disk = .ok t := by
      unfold ReadPartitionTable; simp [ht]
    simp only [hr, hp, hrt, bind, Except.bind, ParsePartitionTable_eq, hf] at h
    by_cases hlt : e < (p.Start : Int)
    · simp [hlt] at h
    · simp only [hlt, if_false, Except.ok.injEq] at h
      exact ⟨t, p, ht, hf, by omega, h.symm⟩

theorem destStart_decimal (current n : Nat) (dest : GoString) (h : parseDecimal dest = some n) :
    destStart current dest = .ok n := by
  cases dest with
  | nil => simp [parseDecimal] at h
  | cons c size =>
    have hc : 48 ≤ c.val ∧ c.val ≤ 57 := by
      by_contra hcon
      simp [parseDecimal, parseDigits, hcon] at h
    have h43 : ¬ c = 43 := by intro e; rw [e] at hc; omega
    have h45 : ¬ c = 45 := by intro e; rw [e] at hc; omega
    simp only [destStart, h43, h45, if_false, h]

theorem destStart_FormatUint (current n : Nat) : destStart current (FormatUint n) = .ok n :=
  destStart_decimal _ _ _ (parseDecimal_FormatUint n)

theorem entry_name_ne (disk : GoString) (a b : Int) (ha : 0 < a) (hb : 0 < b) (h : a ≠ b) :
    disk ++ Itoa a ≠ disk ++ Itoa b := by
  intro e
  exact h (Itoa_injective a b ha hb (List.append_cancel_left e))

theorem ReadPartitionStart_eq (w : World) (disk : GoString) (n : Int) (p : PartContent)
    (h : readEntry w disk n = .ok p) : ReadPartitionStart w disk n = .ok p.Start := by
  simp [ReadPartitionStart, h, bind, Except.bind]

theorem ReadPartitionSize_eq (w : World) (disk : GoString) (n : Int) (p : PartContent)
    (h : readEntry w disk n = .ok p) : ReadPartitionSize w disk n = .ok p.Size := by
  simp [ReadPartitionSize, h, bind, Except.bind]

theorem ConvertSizeToBytes_lt (size : GoString) (n : Nat) (h : ConvertSizeToBytes size = .ok n) :
    n < 2 ^ 64 := by
  have key : ∀ (mult : Nat) (digits : GoString),
      (match parseDecimal digits with
        | some k => if k < 2 ^ 64 then Except.ok (u64 (k * mult)) else Except.error Err.InvalidSizeFormat
        | none => Except.error Err.InvalidSizeFormat) = Except.ok n → n < 2 ^ 64 := by
    intro mult digits hk
    cases hp : parseDecimal digits with
    | none => simp [hp] at hk
    | some k =>
      simp only [hp] at hk
      split_ifs at hk
      rw [← Except.ok.inj hk]
      exact Nat.mod_lt _ (by norm_num)
  unfold ConvertSizeToBytes at h
  cases hl : size.getLast? with
  | none => simp [hl] at h
  | some c =>
    simp only [hl] at h
    split_ifs at h <;> exact key _ _ h

/-! ### C1 -/

/-- C1: `ExtendOEMPartition` on a valid table in which the state partition starts right after
the OEM partition, with a requested size larger than the OEM partition's current size: when
every step succeeds, the OEM partition's new start sector is the state partition's original
start sector, and the OEM partition's last sector is the state partition's new start sector
minus one. -/
theorem ExtendOEMPartition_geometry (w w' : World) (disk oemSize : GoString)
    (statePartNum oemPartNum : Int) (t : PartitionTable) (state oem : PartContent)
    (newSize : Nat)
    (ht : w.tables disk = some t) (hvalid : ValidTable t)
    (hstate : readEntry w disk statePartNum = .ok state)
    (hoem : readEntry w disk oemPartNum = .ok oem)
    (hadj : state.Start = oem.Start + oem.Size)
    (hsize : ConvertSizeToBytes oemSize = .ok newSize)
    (hlarger : oem.Size * 512 < newSize)
    (hrun : ExtendOEMPartition w disk statePartNum oemPartNum oemSize = .ok w') :
    ∃ state' oem', readEntry w' disk statePartNum = .ok state' ∧
      readEntry w' disk oemPartNum = .ok oem' ∧
      oem'.Start = state.Start ∧
      oem'.lastSector = state'.Start - 1 ∧
      0 < oem'.Size ∧ 0 < state'.Start := by
  obtain ⟨hd, hsn, ts, hts, hfs⟩ := readEntry_ok _ _ _ _ hstate
  obtain ⟨_, hon, tb, hto, hfo⟩ := readEntry_ok _ _ _ _ hoem
  rw [ht] at hts hto
  cases hts; cases hto
  have hpos : 0 < oem.Size := findEntry_size_pos _ _ _ hvalid hfo
  have hne : oemPartNum ≠ statePartNum := by
    intro e
    rw [e, hstate] at hoem
    cases hoem
    omega
  have hname : disk ++ Itoa oemPartNum ≠ disk ++ Itoa statePartNum :=
    entry_name_ne disk _ _ hon hsn hne
  have hlt := ConvertSizeToBytes_lt _ _ hsize
  have hcmp : ¬ newSize ≤ u64 (oem.Size * 512) := by
    unfold u64
    rw [Nat.mod_eq_of_lt (by omega)]
    omega
  unfold ExtendOEMPartition at hrun
  have hguard : ¬ (disk.length ≤ 0 ∨ statePartNum ≤ 0 ∨ oemPartNum ≤ 0) := by omega
  have hrt : ReadPartitionTable w disk = .ok t := by simp [ReadPartitionTable, ht]
  simp only [hguard, if_false, hsize, ReadPartitionSize_eq _ _ _ _ hoem, hcmp, hrt,
    ReadPartitionStart_eq _ _ _ _ hstate, bind, Except.bind] at hrun
  -- the state partition moves away
  cases hm1 : MovePartition w disk statePartNum (lit "+" ++ oemSize) with
  | error e => simp [hm1] at hrun
  | ok w1 =>
    obtain ⟨t0, p0, s1, ht0, hf0, _, hw1⟩ := MovePartition_ok _ _ _ _ _ hm1
    rw [ht] at ht0; cases ht0
    rw [hfs] at hf0; cases hf0
    have hw1t : w1.tables disk = some
        (setEntry t (disk ++ Itoa statePartNum) { state with Start := s1 }) := by
      rw [hw1]; exact write_tables_same _ _ _ _
    have hr1 : readEntry w1 disk statePartNum = .ok { state with Start := s1 } :=
      readEntry_of_find _ _ _ _ _ hd hsn hw1t (findEntry_setEntry_same _ _ _ _ hfs)
    have hro1 : readEntry w1 disk oemPartNum = .ok oem :=
      readEntry_of_find _ _ _ _ _ hd hon hw1t
        (by rw [findEntry_setEntry_other _ _ _ _ hname]; exact hfo)
    simp only [hm1, ReadPartitionStart_eq _ _ _ _ hr1] at hrun
    -- the OEM partition moves to the vacated start
    cases hm2 : MovePartition w1 disk oemPartNum (Itoa (state.Start : Int)) with
    | error e => simp [hm2] at hrun
    | ok w2 =>
      obtain ⟨t1, p1, s2, ht1, hf1, hs2, hw2⟩ := MovePartition_ok _ _ _ _ _ hm2
      rw [hw1t] at ht1; cases ht1
      rw [findEntry_setEntry_other _ _ _ _ hname, hfo] at hf1; cases hf1
      have hitoa : Itoa (state.Start : Int) = FormatUint state.Start := by
        unfold Itoa; rw [if_neg (by omega)]; simp
      rw [hitoa, destStart_FormatUint] at hs2
      cases hs2
      have hw2t : w2.tables disk = some
          (setEntry (setEntry t (disk ++ Itoa statePartNum) { state with Start := s1 })
            (disk ++ Itoa oemPartNum) { oem with Start := state.Start }) := by
        rw [hw2]; exact write_tables_same _ _ _ _
      have hfo1 : findEntry (setEntry t (disk ++ Itoa statePartNum) { state with Start := s1 })
          (disk ++ Itoa oemPartNum) = some oem := by
        rw [findEntry_setEntry_other _ _ _ _ hname]; exact hfo
      simp only [hm2] at hrun
      -- the OEM partition grows up to the state partition
      cases hm3 : ExtendPartition w2 disk oemPartNum ((s1 : Int) - 1) with
      | error e => simp [hm3] at hrun
      | ok w3 =>
        obtain ⟨t2, p2, ht2, hf2, hle, hw3⟩ := ExtendPartition_ok _ _ _ _ _ hm3
        rw [hw2t] at ht2; cases ht2
        rw [findEntry_setEntry_same _ _ _ _ hfo1] at hf2; cases hf2
        have hw3t : w3.tables disk = some (setEntry
            (setEntry (setEntry t (disk ++ Itoa statePartNum) { state with Start := s1 })
              (disk ++ Itoa oemPartNum) { oem with Start := state.Start })
            (disk ++ Itoa oemPartNum)
            { Start := state.Start, Size := ((s1 : Int) - 1 - (state.Start : Int) + 1).toNat }) := by
          rw [hw3]; exact write_tables_same _ _ _ _
        simp only [hm3, ReadPartitionTable, hw3t, Except.ok.injEq] at hrun
        subst hrun
        refine ⟨{ state with Start := s1 },
          { Start := state.Start, Size := ((s1 : Int) - 1 - (state.Start : Int) + 1).toNat },
          ?_, ?_, rfl, ?_, ?_, ?_⟩
        · apply readEntry_of_find _ _ _ _ _ hd hsn hw3t
          rw [findEntry_setEntry_other _ _ _ _ hname.symm,
            findEntry_setEntry_other _ _ _ _ hname.symm]
          exact findEntry_setEntry_same _ _ _ _ hfs
        · apply readEntry_of_find _ _ _ _ _ hd hon hw3t
          exact findEntry_setEntry_same _ _ _ _ (findEntry_setEntry_same _ _ _ _ hfo1)
        · simp only [PartContent.lastSector] at hle ⊢
          omega
        · simp only at hle ⊢
          omega
        · simp only at hle ⊢
          omega

theorem ExtendOEMPartition_geometry_witness :
    ExtendOEMPartition exWorld exDisk 1 8 (lit "4M") = .ok exExtended ∧
    ∃ state' oem', readEntry exExtended exDisk 1 = .ok state' ∧
      readEntry exExtended exDisk 8 = .ok oem' ∧
      oem'.Start = 8192 ∧ oem'.lastSector = state'.Start - 1 ∧
      0 < oem'.Size ∧ 0 < state'.Start :=
  ⟨rfl, ExtendOEMPartition_geometry exWorld exExtended exDisk (lit "4M") 1 8 exTable
    { Start := 8192, Size := 1000 } { Start := 4096, Size := 4096 } 4194304
    (by decide) (by decide) (by decide) (by decide) (by decide) (by decide) (by decide) rfl⟩

/-! ### C2, C3, C4: the unit conversions and the start point of `HandleDiskLayout` -/

/-- C2: at a request of 4 MiB (4194304 bytes, a multiple of 512) without reclaiming, every
step of `HandleDiskLayout` succeeds, the state partition is moved from sector 8192 to sector
8192 + 4194304 / 256 = 24576 and the OEM partition ends up holding 16384 sectors, twice the
4194304 / 512 = 8192 sectors requested: the code converts bytes to sectors with a shift by 8
(bytes / 256), not with bytes / 512. -/
theorem HandleDiskLayout_converts_bytes_by_256 :
    ConvertSizeToBytes (lit "4M") = .ok 4194304 ∧
    4194304 % 512 = 0 ∧
    HandleDiskLayout exWorld exDisk 1 8 (lit "4M") false
      = .ok (worldAfter exWorld (HandleDiskLayout exWorld exDisk 1 8 (lit "4M") false)) ∧
    readEntry (worldAfter exWorld (HandleDiskLayout exWorld exDisk 1 8 (lit "4M") false))
      exDisk 1 = .ok { Start := 8192 + 4194304 / 256, Size := 1000 } ∧
    readEntry (worldAfter exWorld (HandleDiskLayout exWorld exDisk 1 8 (lit "4M") false))
      exDisk 8 = .ok { Start := 8192, Size := 16384 } ∧
    16384 ≠ 4194304 / 512 := by
  refine ⟨by decide, by decide, rfl, by decide, by decide, by decide⟩

/-- C3: the OEM partition of the sample table holds 4096 sectors, 2097152 bytes. A request
of 2 MiB is not larger (2097152 ≤ 4096 * 512), yet `HandleDiskLayout` does not take the
"not larger" branch: it compares with 4096 * 256 and moves and extends the partitions. -/
theorem HandleDiskLayout_compares_with_256_byte_sectors :
    ReadPartitionSize exWorld exDisk 8 = .ok 4096 ∧
    ConvertSizeToBytes (lit "2M") = .ok 2097152 ∧
    2097152 ≤ 4096 * 512 ∧
    (worldAfter exWorld (HandleDiskLayout exWorld exDisk 1 8 (lit "2M") false)).trace =
      [ Op.move exDisk 1 (lit "16384"), Op.move exDisk 8 (lit "8192"),
        Op.extend exDisk 8 16383 ] ∧
    readEntry (worldAfter exWorld (HandleDiskLayout exWorld exDisk 1 8 (lit "2M") false))
      exDisk 8 = .ok { Start := 8192, Size := 8192 } := by
  refine ⟨by decide, by decide, by decide, by decide, by decide⟩

/-- C4: the root partition of the sample table starts at sector 20000. Minimizing it leaves
it the sectors 20000 to 24095 and returns 24096 = 20000 + 4096, the first free sector.
`HandleDiskLayout` with `reclaimSDA3` adds one more and uses 24097 as its start point: that
is where it moves the state partition when the OEM partition needs no resizing. -/
theorem HandleDiskLayout_start_point_off_by_one :
    readEntry exWorld (lit "/dev/sda") 3 = .ok { Start := 20000, Size := 5000 } ∧
    (MinimizePartition exWorld (lit "/dev/sda") 3).map Prod.snd = .ok (20000 + 4096) ∧
    HandleDiskLayout exWorld exDisk 1 8 (lit "1M") true
      = .ok (worldAfter exWorld (HandleDiskLayout exWorld exDisk 1 8 (lit "1M") true)) ∧
    readEntry (worldAfter exWorld (HandleDiskLayout exWorld exDisk 1 8 (lit "1M") true))
      (lit "/dev/sda") 3 = .ok { Start := 20000, Size := 4096 } ∧
    (worldAfter exWorld (HandleDiskLayout exWorld exDisk 1 8 (lit "1M") true)).trace =
      [ Op.minimize (lit "/dev/sda") 3, Op.move exDisk 1 (lit "24097") ] ∧
    ReadPartitionStart (worldAfter exWorld (HandleDiskLayout exWorld exDisk 1 8 (lit "1M") true))
      exDisk 1 = .ok (20000 + 4096 + 1) := by
  refine ⟨by decide, by decide, rfl, by decide, by decide, by decide⟩

/-! ### C5: the target count written by `appendDMEntryToGRUB` -/

/-- C5: on a command line whose device-mapper value starts with the target count 2, the
patched line carries the count digit `2` again, not `3`: the code writes the literal `2`
where the count stands and does not add one to the digit it finds. -/
theorem patchLine_count_is_literal_two :
    Index exTwoTargets (lit "dm=") = some 15 ∧
    exTwoTargets.get? (15 + 4) = some 50 ∧
    patchLine (lit "vb none ro 1, 0 8 verity\"") exTwoTargets = some (lit
      ("linux /vmlinuz dm=\"2 vroot none ro 1,0 4077568 verity, oemroot none ro 1, 0 800 verity,"
        ++ "vb none ro 1, 0 8 verity\"")) ∧
    (patchLine (lit "vb none ro 1, 0 8 verity\"") exTwoTargets).bind (fun l => l.get? (15 + 4))
      = some 50 ∧
    (50 : Byte) ≠ 51 := by
  refine ⟨by decide, by decide, by decide, by decide, by decide⟩

/-! ### C9: reports of fewer than three lines -/

/-- C9: on the empty report, and on a report of two lines whose first line begins with
`Root hash:`, `veritysetup` ends in a run-time panic (index out of range), not in an error
value. -/
theorem veritysetup_panics_on_short_report :
    veritysetup (some []) 2048 = Outcome.panic ∧
    Split (lit "Root hash: d6b862d0\n") 10 = [lit "Root hash: d6b862d0", []] ∧
    veritysetup (some (lit "Root hash: d6b862d0\n")) 2048 = Outcome.panic := by
  refine ⟨by decide, by decide, by decide⟩

/-! ### Slices and strings -/

theorem goIndex_append_left {α : Type} (pre rest : List α) (i : Int) (k : Nat)
    (h : i = (pre.length : Int) + k) : goIndex (pre ++ rest) i = rest.get? k := by
  subst h
  unfold goIndex
  rw [if_neg (by omega)]
  have : ((pre.length : Int) + (k : Int)).toNat = pre.length + k := by omega
  rw [this]
  simp [List.getElem?_append_right]

theorem HasPrefix_append (pre s : GoString) : HasPrefix (pre ++ s) pre = true := by
  unfold HasPrefix
  induction pre with
  | nil => simp [List.isPrefixOf]
  | cons b pre ih => simp [List.isPrefixOf, ih]

theorem Split_ne_nil (s : GoString) (c : Byte) : Split s c ≠ [] := by
  induction s with
  | nil => simp [Split]
  | cons b s _ =>
    unfold Split
    split_ifs
    · simp
    · cases Split s c <;> simp

theorem Split_cons_sep (s : GoString) (c : Byte) : Split (c :: s) c = [] :: Split s c := by
  simp [Split]

theorem Split_cons_ne (b c : Byte) (s : GoString) (h : b ≠ c) :
    Split (b :: s) c = (b :: (Split s c).headD []) :: (Split s c).tail := by
  have hne := Split_ne_nil s c
  rw [Split, if_neg h]
  cases hs : Split s c with
  | nil => exact absurd hs hne
  | cons hd tl => simp

theorem Split_not_mem (s : GoString) (c : Byte) (h : c ∉ s) : Split s c = [s] := by
  induction s with
  | nil => simp [Split]
  | cons b s ih =>
    have hb : b ≠ c := fun e => h (by simp [e])
    have hs : c ∉ s := fun e => h (by simp [e])
    rw [Split_cons_ne b c s hb, ih hs]
    simp

theorem Split_append_sep (a s : GoString) (c : Byte) (h : c ∉ a) :
    Split (a ++ c :: s) c = a :: Split s c := by
  induction a with
  | nil => simp [Split]
  | cons b a ih =>
    have hb : b ≠ c := fun e => h (by simp [e])
    have ha : c ∉ a := fun e => h (by simp [e])
    rw [List.cons_append, Split_cons_ne b c _ hb, ih ha]
    simp

theorem Join_Split (s : GoString) (c : Byte) : Join (Split s c) [c] = s := by
  induction s with
  | nil => simp [Split, Join]
  | cons b s ih =>
    by_cases hb : b = c
    · subst hb
      rw [Split_cons_sep]
      cases hs : Split s b with
      | nil => exact absurd hs (Split_ne_nil s b)
      | cons hd tl =>
        rw [hs] at ih
        simp [Join, ih]
    · rw [Split_cons_ne b c s hb]
      cases hs : Split s c with
      | nil => exact absurd hs (Split_ne_nil s c)
      | cons hd tl =>
        rw [hs] at ih
        cases tl with
        | nil => simpa [Join] using ih
        | cons x xs =>
          simp only [List.headD_cons, List.tail_cons, Join, List.cons_append] at ih ⊢
          rw [ih]

theorem Join_append_singleton (xs : List GoString) (e sep : GoString) (h : xs ≠ []) :
    Join (xs ++ [e]) sep = Join xs sep ++ sep ++ e := by
  induction xs with
  | nil => exact absurd rfl h
  | cons a xs ih =>
    cases xs with
    | nil => simp [Join]
    | cons b xs =>
      have := ih (by simp)
      simp only [List.cons_append, Join, List.append_eq] at this ⊢
      rw [this]
      simp [List.append_assoc]

/-! ### C10: the two malformed reports -/

/-- C10: a report whose last two lines are the `Salt:` line and the `Root hash:` line, with
no blank line after them, and a report that ends with the `Root hash:` line, the `Salt:`
line and a blank line, in this swapped order, both end in the error
`UnexpectedToolOutput`; no hash and salt are returned. -/
theorem veritysetup_rejects_malformed (out : GoString) (pre : List GoString)
    (x y : GoString) (n : Nat) :
    (Split out 10 = pre ++ [lit "Salt:" ++ x, lit "Root hash:" ++ y] →
      veritysetup (some out) n = .fail .UnexpectedToolOutput) ∧
    (Split out 10 = pre ++ [lit "Root hash:" ++ y, lit "Salt:" ++ x, []] →
      veritysetup (some out) n = .fail .UnexpectedToolOutput) := by
  have hno : HasPrefix (lit "Salt:" ++ x) (lit "Root hash:") = false := by
    have h1 : lit "Salt:" ++ x = 83 :: (lit "alt:" ++ x) := rfl
    have h2 : lit "Root hash:" = 82 :: lit "oot hash:" := rfl
    rw [h1, h2, HasPrefix, List.isPrefixOf]
    have : ((82 : Byte) == 83) = false := by decide
    rw [this, Bool.false_and]
  constructor
  · intro h
    have h2 : goIndex (Split out 10) (((Split out 10).length : Int) - 2)
        = some (lit "Salt:" ++ x) := by
      rw [h, goIndex_append_left pre _ _ 0 (by simp)]
      rfl
    simp only [veritysetup, h2, hno]
    rfl
  · intro h
    have h2 : goIndex (Split out 10) (((Split out 10).length : Int) - 2)
        = some (lit "Salt:" ++ x) := by
      rw [h, goIndex_append_left pre _ _ 1 (by simp; omega)]
      rfl
    simp only [veritysetup, h2, hno]
    rfl

theorem veritysetup_rejects_malformed_witness :
    veritysetup (some (lit "Hash algorithm: sha256\nSalt: 9cd7ba29\nRoot hash: d6b862d0")) 2048
      = .fail .UnexpectedToolOutput ∧
    veritysetup (some (lit "Hash algorithm: sha256\nRoot hash: d6b862d0\nSalt: 9cd7ba29\n")) 2048
      = .fail .UnexpectedToolOutput :=
  ⟨(veritysetup_rejects_malformed
      (lit "Hash algorithm: sha256\nSalt: 9cd7ba29\nRoot hash: d6b862d0")
      [lit "Hash algorithm: sha256"] (lit " 9cd7ba29") (lit " d6b862d0") 2048).1 (by decide),
   (veritysetup_rejects_malformed
      (lit "Hash algorithm: sha256\nRoot hash: d6b862d0\nSalt: 9cd7ba29\n")
      [lit "Hash algorithm: sha256"] (lit " 9cd7ba29") (lit " d6b862d0") 2048).2 (by decide)⟩

/-! ### ASCII text -/

theorem DecodeRune_ascii (b : Byte) (s : GoString) (h : b.val < 128) :
    DecodeRune (b :: s) = (b.val, 1) := by
  simp [DecodeRune, h]

theorem runesAux_ascii (fuel : Nat) (s : GoString) (hf : s.length ≤ fuel)
    (h : ∀ b ∈ s, b.val < 128) : runesAux fuel s = s.map (fun b => b.val) := by
  induction fuel generalizing s with
  | zero =>
    cases s with
    | nil => rfl
    | cons b s => simp at hf
  | succ fuel ih =>
    cases s with
    | nil => rfl
    | cons b s =>
      have hb : b.val < 128 := h b (by simp)
      simp only [runesAux, DecodeRune_ascii b s hb, List.drop_succ_cons, List.drop_zero,
        List.map_cons]
      rw [ih s (by simpa using hf) (fun x hx => h x (by simp [hx]))]

theorem toRunes_ascii (s : GoString) (h : ∀ b ∈ s, b.val < 128) :
    toRunes s = s.map (fun b => b.val) :=
  runesAux_ascii _ _ (le_refl _) h

theorem fromRunes_ascii (s : GoString) (h : ∀ b ∈ s, b.val < 128) :
    fromRunes (s.map (fun b => b.val)) = s := by
  induction s with
  | nil => rfl
  | cons b s ih =>
    have hb : b.val < 128 := h b (by simp)
    have he : EncodeRune b.val = [b] := by
      have hle : b.val ≤ 0x7F := by omega
      unfold EncodeRune
      rw [if_pos hle]
      congr 1
      apply Fin.ext
      simp [Fin.ofNat]
    simp only [fromRunes, List.map_cons, List.flatMap_cons, he] at ih ⊢
    rw [ih (fun x hx => h x (by simp [hx]))]
    rfl

/-! ### C6: the patched command line -/

theorem Contains_of_Index (s sub : GoString) (p : Nat) (h : Index s sub = some p) :
    Contains s sub = true := by
  simp [Contains, h]

/-- C6: for an ASCII line of grub.cfg that contains `dm=`, ends with the closing double quote
of the dm value and has its count digit, 4 positions after the start of `dm=`, before that
quote, the patched line is the line without the final quote and with the count digit
rewritten (to `2`), followed by a comma and the descriptor
`<name> none ro 1, 0 <S> verity payload=PARTUUID=<partUUID> hashtree=PARTUUID=<partUUID>
hashstart=<S> alg=sha256 root_hexdigest=<hash> salt=<salt>"`, where `S` is the size in 4 KiB
blocks times 8. -/
theorem patchLine_ascii_line (name partUUID hash salt body : GoString) (oemFSSize4K p : Nat)
    (hascii : ∀ b ∈ body, b.val < 128)
    (hmarker : Index (body ++ lit "\"") (lit "dm=") = some p)
    (hdigit : p + 4 < body.length)
    (hsize : oemFSSize4K * 8 < 2 ^ 64) :
    patchLine (entryString name partUUID hash salt oemFSSize4K) (body ++ lit "\"") =
      some (body.set (p + 4) 50 ++ lit "," ++
        (name ++ lit " none ro 1, 0 " ++ FormatUint (oemFSSize4K * 8) ++
          lit " verity payload=PARTUUID=" ++ partUUID ++ lit " hashtree=PARTUUID=" ++ partUUID ++
          lit " hashstart=" ++ FormatUint (oemFSSize4K * 8) ++
          lit " alg=sha256 root_hexdigest=" ++ hash ++ lit " salt=" ++ salt ++ lit "\"")) := by
  have hentry : entryString name partUUID hash salt oemFSSize4K =
      name ++ lit " none ro 1, 0 " ++ FormatUint (oemFSSize4K * 8) ++
        lit " verity payload=PARTUUID=" ++ partUUID ++ lit " hashtree=PARTUUID=" ++ partUUID ++
        lit " hashstart=" ++ FormatUint (oemFSSize4K * 8) ++
        lit " alg=sha256 root_hexdigest=" ++ hash ++ lit " salt=" ++ salt ++ lit "\"" := by
    have hs : u64 (oemFSSize4K <<< 3) = oemFSSize4K * 8 := by
      unfold u64
      rw [Nat.shiftLeft_eq, Nat.mod_eq_of_lt (by omega)]
    simp only [entryString, hs]
  rw [hentry]
  have hq : lit "\"" = [34] := rfl
  have hlen0 : (body ++ lit "\"").length = body.length + 1 := by simp [hq]
  have htake : (body ++ lit "\"").take ((body ++ lit "\"").length - 1) = body := by
    rw [hlen0]
    simp
  have hlen : (toRunes body).length = body.length := by
    rw [toRunes_ascii _ hascii]
    simp
  have hset : (toRunes body).set (p + 4) 50 = (body.set (p + 4) 50).map (fun b => b.val) := by
    rw [toRunes_ascii _ hascii, List.map_set]
    rfl
  have hasc' : ∀ b ∈ body.set (p + 4) 50, b.val < 128 := by
    intro b hb
    rcases List.mem_or_eq_of_mem_set hb with h1 | h1
    · exact hascii b h1
    · rw [h1]; decide
  have hcomma : lit "," = [44] := rfl
  unfold patchLine
  rw [Contains_of_Index _ _ _ hmarker, hmarker]
  simp only [Bool.not_true, Bool.false_eq_true, if_false, htake, hlen]
  rw [if_neg (by omega), if_pos hdigit, hset, fromRunes_ascii _ hasc',
    Join_append_singleton _ _ _ (Split_ne_nil _ _), hcomma, Join_Split]

set_option maxRecDepth 100000 in
/-- The sample command line of §8.6, with one device-mapper target. -/
theorem patchLine_ascii_line_witness :
    patchLine (entryString (lit "oemroot") (lit "9db2ae75") (lit "d6b862d0") (lit "9cd7ba29") 100)
        (lit "linux /vmlinuz root=/dev/dm-0 dm=\"1 vroot none ro 1,0 4077568 verity alg=sha256\"")
      = some (lit ("linux /vmlinuz root=/dev/dm-0 dm=\"2 vroot none ro 1,0 4077568 verity alg=sha256"
        ++ ",oemroot none ro 1, 0 800 verity payload=PARTUUID=9db2ae75 hashtree=PARTUUID=9db2ae75"
        ++ " hashstart=800 alg=sha256 root_hexdigest=d6b862d0 salt=9cd7ba29\"")) :=
  (patchLine_ascii_line (lit "oemroot") (lit "9db2ae75") (lit "d6b862d0") (lit "9cd7ba29")
    (lit "linux /vmlinuz root=/dev/dm-0 dm=\"1 vroot none ro 1,0 4077568 verity alg=sha256")
    100 30 (by decide) (by decide) (by decide) (by decide)).trans (by decide)

/-! ### Newlines survive neither decoding nor encoding -/

theorem Fin_ofNat_val (n : Nat) : (Fin.ofNat n : Byte).val = n % 256 := by
  simp [Fin.ofNat]

theorem acceptLo_spec (b : Byte) :
    0x80 ≤ acceptLo b ∧ (b.val = 0xE0 → acceptLo b = 0xA0) ∧ (b.val = 0xF0 → acceptLo b = 0x90) := by
  unfold acceptLo
  split_ifs <;> omega

theorem acceptHi_spec (b : Byte) : acceptHi b ≤ 0xBF := by
  unfold acceptHi
  split_ifs <;> omega

theorem isCont_iff (b : Byte) : isCont b = true ↔ 0x80 ≤ b.val ∧ b.val ≤ 0xBF := by
  simp [isCont]

/-- The shapes a decoding step can take: an ASCII byte, an invalid byte, or a well-formed
encoding of two, three or four bytes. -/
theorem DecodeRune_cases (b0 : Byte) (rest : GoString) :
    (b0.val < 0x80 ∧ DecodeRune (b0 :: rest) = (b0.val, 1)) ∨
    (0x80 ≤ b0.val ∧ DecodeRune (b0 :: rest) = (RuneError, 1)) ∨
    (∃ b1 t, rest = b1 :: t ∧ 0xC2 ≤ b0.val ∧ b0.val ≤ 0xDF ∧ isCont b1 = true ∧
      DecodeRune (b0 :: rest) = (b0.val % 32 * 64 + b1.val % 64, 2)) ∨
    (∃ b1 b2 t, rest = b1 :: b2 :: t ∧ 0xE0 ≤ b0.val ∧ b0.val ≤ 0xEF ∧
      acceptLo b0 ≤ b1.val ∧ b1.val ≤ acceptHi b0 ∧ isCont b2 = true ∧
      DecodeRune (b0 :: rest) = (b0.val % 16 * 4096 + b1.val % 64 * 64 + b2.val % 64, 3)) ∨
    (∃ b1 b2 b3 t, rest = b1 :: b2 :: b3 :: t ∧ 0xF0 ≤ b0.val ∧ b0.val ≤ 0xF4 ∧
      acceptLo b0 ≤ b1.val ∧ b1.val ≤ acceptHi b0 ∧ isCont b2 = true ∧ isCont b3 = true ∧
      DecodeRune (b0 :: rest) =
        (b0.val % 8 * 262144 + b1.val % 64 * 4096 + b2.val % 64 * 64 + b3.val % 64, 4)) := by
  by_cases h1 : b0.val < 0x80
  · left
    exact ⟨h1, by simp [DecodeRune, h1]⟩
  · right
    by_cases h2 : 0xC2 ≤ b0.val ∧ b0.val ≤ 0xDF
    · cases rest with
      | nil => left; exact ⟨by omega, by simp [DecodeRune, h1, h2]⟩
      | cons b1 t =>
        by_cases hc : isCont b1 = true
        · right; left
          exact ⟨b1, t, rfl, h2.1, h2.2, hc, by simp [DecodeRune, h1, h2, hc]⟩
        · left; exact ⟨by omega, by simp [DecodeRune, h1, h2, hc]⟩
    · by_cases h3 : 0xE0 ≤ b0.val ∧ b0.val ≤ 0xEF
      · match rest with
        | [] => left; exact ⟨by omega, by simp [DecodeRune, h1, h2, h3]⟩
        | [_] => left; exact ⟨by omega, by simp [DecodeRune, h1, h2, h3]⟩
        | b1 :: b2 :: t =>
          by_cases hc : acceptLo b0 ≤ b1.val ∧ b1.val ≤ acceptHi b0 ∧ isCont b2 = true
          · right; right; left
            exact ⟨b1, b2, t, rfl, h3.1, h3.2, hc.1, hc.2.1, hc.2.2,
              by simp [DecodeRune, h1, h2, h3, hc]⟩
          · left; exact ⟨by omega, by simp [DecodeRune, h1, h2, h3, hc]⟩
      · by_cases h4 : 0xF0 ≤ b0.val ∧ b0.val ≤ 0xF4
        · match rest with
          | [] => left; exact ⟨by omega, by simp [DecodeRune, h1, h2, h3, h4]⟩
          | [_] => left; exact ⟨by omega, by simp [DecodeRune, h1, h2, h3, h4]⟩
          | [_, _] => left; exact ⟨by omega, by simp [DecodeRune, h1, h2, h3, h4]⟩
          | b1 :: b2 :: b3 :: t =>
            by_cases hc : acceptLo b0 ≤ b1.val ∧ b1.val ≤ acceptHi b0 ∧ isCont b2 = true ∧
                isCont b3 = true
            · right; right; right
              exact ⟨b1, b2, b3, t, rfl, h4.1, h4.2, hc.1, hc.2.1, hc.2.2.1, hc.2.2.2,
                by simp [DecodeRune, h1, h2, h3, h4, hc]⟩
            · left; exact ⟨by omega, by simp [DecodeRune, h1, h2, h3, h4, hc]⟩
        · left; exact ⟨by omega, by simp [DecodeRune, h1, h2, h3, h4]⟩

theorem DecodeRune_size_pos (b : Byte) (s : GoString) : 1 ≤ (DecodeRune (b :: s)).2 := by
  rcases DecodeRune_cases b s with h | h | ⟨b1, t, _, _, _, _, h⟩ |
    ⟨b1, b2, t, _, _, _, _, _, _, h⟩ | ⟨b1, b2, b3, t, _, _, _, _, _, _, _, h⟩
  · simp [h.2]
  · simp [h.2]
  · simp [h]
  · simp [h]
  · simp [h]

theorem DecodeRune_ne_newline (b : Byte) (s : GoString) (h : b ≠ 10) :
    (DecodeRune (b :: s)).1 ≠ 10 := by
  have hb : b.val ≠ 10 := fun e => h (Fin.ext e)
  have hlo := acceptLo_spec b
  have hhi := acceptHi_spec b
  rcases DecodeRune_cases b s with h | h | ⟨b1, t, _, _, _, _, h⟩ |
    ⟨b1, b2, t, _, _, _, h1, _, _, h⟩ | ⟨b1, b2, b3, t, _, _, _, h1, _, _, _, h⟩
  · rw [h.2]; exact hb
  · rw [h.2]; simp [RuneError]
  · rw [h]; dsimp only; omega
  · rw [h]; dsimp only; omega
  · rw [h]; dsimp only; omega

theorem runesAux_ne_newline (fuel : Nat) (s : GoString) (h : (10 : Byte) ∉ s) :
    ∀ r ∈ runesAux fuel s, r ≠ 10 := by
  induction fuel generalizing s with
  | zero => simp [runesAux]
  | succ fuel ih =>
    cases s with
    | nil => simp [runesAux]
    | cons b s =>
      have hb : b ≠ 10 := fun e => h (by simp [e])
      intro r hr
      simp only [runesAux, List.mem_cons] at hr
      rcases hr with hr | hr
      · rw [hr]; exact DecodeRune_ne_newline b s hb
      · exact ih _ (fun hm => h (List.mem_of_mem_drop hm)) r hr

theorem EncodeRune_ne_newline (r : Nat) (h : r ≠ 10) : (10 : Byte) ∉ EncodeRune r := by
  have key : ∀ n : Nat, n % 256 ≠ 10 → (10 : Byte) ≠ Fin.ofNat n := by
    intro n hn e
    have := congrArg Fin.val e
    rw [Fin_ofNat_val] at this
    exact hn this.symm
  unfold EncodeRune
  split_ifs with h1 h2 h3 h4
  · simp only [List.mem_singleton]
    exact key r (by omega)
  · simp only [List.mem_cons, List.mem_singleton, List.not_mem_nil, or_false, not_or]
    exact ⟨key (0xC0 + r / 64) (by omega), key (0x80 + r % 64) (by omega)⟩
  · decide
  · simp only [List.mem_cons, List.mem_singleton, List.not_mem_nil, or_false, not_or]
    exact ⟨key (0xE0 + r / 4096) (by omega), key (0x80 + r / 64 % 64) (by omega),
      key (0x80 + r % 64) (by omega)⟩
  · simp only [List.mem_cons, List.mem_singleton, List.not_mem_nil, or_false, not_or]
    exact ⟨key (0xF0 + r / 262144) (by omega), key (0x80 + r / 4096 % 64) (by omega),
      key (0x80 + r / 64 % 64) (by omega), key (0x80 + r % 64) (by omega)⟩

theorem fromRunes_ne_newline (rs : List Nat) (h : ∀ r ∈ rs, r ≠ 10) :
    (10 : Byte) ∉ fromRunes rs := by
  unfold fromRunes
  simp only [List.mem_flatMap, not_exists, not_and]
  intro r hr
  exact EncodeRune_ne_newline r (h r hr)

theorem formatAux_digits (fuel n : Nat) (acc : GoString) :
    ∀ b ∈ formatAux fuel n acc, b ∈ acc ∨ (48 ≤ b.val ∧ b.val ≤ 57) := by
  induction fuel generalizing n acc with
  | zero => intro b hb; exact Or.inl hb
  | succ fuel ih =>
    have hv := digitByte_val n
    intro b hb
    unfold formatAux at hb
    split_ifs at hb
    · simp only [List.mem_cons] at hb
      rcases hb with hb | hb
      · right; rw [hb]; omega
      · exact Or.inl hb
    · rcases ih _ _ b hb with h1 | h1
      · simp only [List.mem_cons] at h1
        rcases h1 with h1 | h1
        · right; rw [h1]; omega
        · exact Or.inl h1
      · exact Or.inr h1

theorem FormatUint_ne_newline (n : Nat) : (10 : Byte) ∉ FormatUint n := by
  intro h
  rcases formatAux_digits _ _ _ _ h with h1 | h1
  · simp at h1
  · exact absurd h1 (by decide)

theorem Join_ne_newline (xs : List GoString) (c : Byte) (sep : GoString) (hs : c ∉ sep)
    (h : ∀ x ∈ xs, c ∉ x) : c ∉ Join xs sep := by
  induction xs with
  | nil => simp [Join]
  | cons a xs ih =>
    cases xs with
    | nil => simpa [Join] using h a (by simp)
    | cons b xs =>
      simp only [Join, List.mem_append, not_or]
      exact ⟨⟨h a (by simp), hs⟩, ih (fun x hx => h x (by simp [hx]))⟩

theorem Split_no_sep (s : GoString) (c : Byte) : ∀ x ∈ Split s c, c ∉ x := by
  induction s with
  | nil => simp [Split]
  | cons b s ih =>
    by_cases hb : b = c
    · subst hb
      rw [Split_cons_sep]
      intro x hx
      simp only [List.mem_cons] at hx
      rcases hx with hx | hx
      · simp [hx]
      · exact ih x hx
    · rw [Split_cons_ne b c s hb]
      cases hs : Split s c with
      | nil => exact absurd hs (Split_ne_nil s c)
      | cons hd tl =>
        rw [hs] at ih
        intro x hx
        simp only [List.headD_cons, List.tail_cons, List.mem_cons] at hx
        rcases hx with hx | hx
        · rw [hx]
          simp only [List.mem_cons, not_or]
          exact ⟨fun e => hb e.symm, ih hd (by simp)⟩
        · exact ih x (by simp [hx])

theorem Split_Join (xs : List GoString) (c : Byte) (hne : xs ≠ [])
    (h : ∀ x ∈ xs, c ∉ x) : Split (Join xs [c]) c = xs := by
  induction xs with
  | nil => exact absurd rfl hne
  | cons a xs ih =>
    cases xs with
    | nil => simpa [Join] using Split_not_mem a c (h a (by simp))
    | cons b xs =>
      simp only [Join, List.append_assoc, List.singleton_append]
      rw [Split_append_sep a _ c (h a (by simp)), ih (by simp) (fun x hx => h x (by simp [hx]))]

/-! ### C7: lines without the marker -/

theorem patchLine_no_marker (entry line : GoString) (h : Contains line (lit "dm=") = false) :
    patchLine entry line = some line := by
  simp [patchLine, h]

theorem patchLines_frame (entry : GoString) (lines lines' : List GoString)
    (h : patchLines entry lines = some lines') :
    lines'.length = lines.length ∧
      ∀ (i : Nat) (line : GoString), lines.get? i = some line →
        Contains line (lit "dm=") = false → lines'.get? i = some line := by
  induction lines generalizing lines' with
  | nil =>
    simp only [patchLines, Option.some.injEq] at h
    subst h
    simp
  | cons l ls ih =>
    unfold patchLines at h
    cases hl : patchLine entry l with
    | none => simp [hl] at h
    | some l' =>
      cases hls : patchLines entry ls with
      | none => simp [hl, hls] at h
      | some ls' =>
        simp only [hl, hls, Option.some.injEq] at h
        subst h
        obtain ⟨hlen, hget⟩ := ih ls' hls
        refine ⟨by simp [hlen], ?_⟩
        intro i line hi hc
        cases i with
        | zero =>
          simp only [List.get?_cons_zero, Option.some.injEq] at hi ⊢
          subst hi
          rw [patchLine_no_marker entry l hc] at hl
          exact (Option.some.inj hl).symm
        | succ i =>
          simp only [List.get?_cons_succ] at hi ⊢
          exact hget i line hi hc

theorem patchLines_no_marker (entry : GoString) (lines : List GoString)
    (h : ∀ line ∈ lines, Contains line (lit "dm=") = false) :
    patchLines entry lines = some lines := by
  induction lines with
  | nil => rfl
  | cons l ls ih =>
    unfold patchLines
    rw [patchLine_no_marker entry l (h l (by simp)), ih (fun x hx => h x (by simp [hx]))]

theorem patchLine_eq_of_marker (entry line line' : GoString)
    (hc : Contains line (lit "dm=") = true) (h : patchLine entry line = some line') :
    ∃ p, Index line (lit "dm=") = some p ∧
      line' = fromRunes ((toRunes (line.take (line.length - 1))).set (p + 4) 50)
        ++ lit "," ++ entry := by
  unfold patchLine at h
  rw [hc] at h
  cases hi : Index line (lit "dm=") with
  | none => simp [Contains, hi] at hc
  | some p =>
    simp only [hi, Bool.not_true, Bool.false_eq_true, if_false] at h
    split_ifs at h
    have hcomma : lit "," = [44] := rfl
    rw [Join_append_singleton _ _ _ (Split_ne_nil _ _), hcomma, Join_Split] at h
    exact ⟨p, rfl, (Option.some.inj h).symm⟩

theorem patchLine_ne_newline (entry line line' : GoString) (hl : (10 : Byte) ∉ line)
    (he : (10 : Byte) ∉ entry) (h : patchLine entry line = some line') :
    (10 : Byte) ∉ line' := by
  by_cases hc : Contains line (lit "dm=") = true
  · obtain ⟨p, _, hp⟩ := patchLine_eq_of_marker entry line line' hc h
    rw [hp]
    have hr : ∀ r ∈ (toRunes (line.take (line.length - 1))).set (p + 4) 50, r ≠ 10 := by
      intro r hr
      rcases List.mem_or_eq_of_mem_set hr with h1 | h1
      · exact runesAux_ne_newline _ _ (fun hm => hl (List.mem_of_mem_take hm)) r h1
      · rw [h1]; decide
    have hx := fromRunes_ne_newline _ hr
    have hcomma : (10 : Byte) ∉ lit "," := by decide
    simp only [List.mem_append, not_or]
    exact ⟨⟨hx, hcomma⟩, he⟩
  · rw [patchLine_no_marker entry line (by simpa using hc)] at h
    rw [← Option.some.inj h]
    exact hl

theorem patchLines_ne_newline (entry : GoString) (lines lines' : List GoString)
    (hl : ∀ line ∈ lines, (10 : Byte) ∉ line) (he : (10 : Byte) ∉ entry)
    (h : patchLines entry lines = some lines') : ∀ line ∈ lines', (10 : Byte) ∉ line := by
  induction lines generalizing lines' with
  | nil =>
    simp only [patchLines, Option.some.injEq] at h
    subst h
    simp
  | cons l ls ih =>
    unfold patchLines at h
    cases hp : patchLine entry l with
    | none => simp [hp] at h
    | some l' =>
      cases hls : patchLines entry ls with
      | none => simp [hp, hls] at h
      | some ls' =>
        simp only [hp, hls, Option.some.injEq] at h
        subst h
        intro line hline
        simp only [List.mem_cons] at hline
        rcases hline with e | e
        · rw [e]
          exact patchLine_ne_newline entry l l' (hl l (by simp)) he hp
        · exact ih ls' (fun x hx => hl x (by simp [hx])) hls line e

theorem entryString_ne_newline (name partUUID hash salt : GoString) (n : Nat)
    (h : (10 : Byte) ∉ name ++ partUUID ++ hash ++ salt) :
    (10 : Byte) ∉ entryString name partUUID hash salt n := by
  simp only [List.mem_append, not_or] at h
  obtain ⟨⟨⟨h1, h2⟩, h3⟩, h4⟩ := h
  have hf := FormatUint_ne_newline (u64 (n <<< 3))
  have l1 : (10 : Byte) ∉ lit " none ro 1, 0 " := by decide
  have l2 : (10 : Byte) ∉ lit " verity payload=PARTUUID=" := by decide
  have l3 : (10 : Byte) ∉ lit " hashtree=PARTUUID=" := by decide
  have l4 : (10 : Byte) ∉ lit " hashstart=" := by decide
  have l5 : (10 : Byte) ∉ lit " alg=sha256 root_hexdigest=" := by decide
  have l6 : (10 : Byte) ∉ lit " salt=" := by decide
  have l7 : (10 : Byte) ∉ lit "\"" := by decide
  simp [entryString, h1, h2, h3, h4, hf, l1, l2, l3, l4, l5, l6, l7]

theorem patchLine_isSome (entry line : GoString)
    (h : ∀ p, Index line (lit "dm=") = some p →
      p + 4 < (toRunes (line.take (line.length - 1))).length) :
    ∃ line', patchLine entry line = some line' := by
  unfold patchLine
  by_cases hc : Contains line (lit "dm=") = true
  · cases hi : Index line (lit "dm=") with
    | none => simp [Contains, hi] at hc
    | some p =>
      have hlen : ¬ line.length < 1 := by
        intro hl
        have : line = [] := List.length_eq_zero.mp (by omega)
        subst this
        have hnone : Index [] (lit "dm=") = none := by decide
        rw [hnone] at hi
        cases hi
      simp only [hc, Bool.not_true, Bool.false_eq_true, if_false, hlen, h p hi, if_true]
      exact ⟨_, rfl⟩
  · simp only [Bool.not_eq_true] at hc
    simp [hc]

theorem patchLines_isSome (entry : GoString) (lines : List GoString)
    (h : ∀ line ∈ lines, ∀ p, Index line (lit "dm=") = some p →
      p + 4 < (toRunes (line.take (line.length - 1))).length) :
    ∃ lines', patchLines entry lines = some lines' := by
  induction lines with
  | nil => exact ⟨[], rfl⟩
  | cons l ls ih =>
    obtain ⟨l', hl⟩ := patchLine_isSome entry l (h l (by simp))
    obtain ⟨ls', hls⟩ := ih (fun x hx => h x (by simp [hx]))
    exact ⟨l' :: ls', by simp [patchLines, hl, hls]⟩

/-- C7: `appendDMEntryToGRUB` splits the content of grub.cfg on newlines, patches the lines
and joins them again. What it writes has the same number of lines, and every line without
the marker `dm=` is the input line at the same position; when the strings of the new entry
hold no newline, these are exactly the lines of the written content. It does write whenever
every marker line is long enough to hold the count digit that is rewritten, and when no line
carries the marker it writes the content back unchanged. -/
theorem appendDMEntryToGRUB_frame (readFile : GoString → Option GoString)
    (grubPath name partUUID hash salt content : GoString) (oemFSSize4K : Nat)
    (hread : readFile (grubPath ++ lit "/grub.cfg") = some content) :
    (∀ path written,
      appendDMEntryToGRUB readFile grubPath name partUUID hash salt oemFSSize4K
        = .ret (path, written) →
      ∃ lines', written = Join lines' (lit "\n") ∧
        lines'.length = (Split content 10).length ∧
        (∀ (i : Nat) (line : GoString), (Split content 10).get? i = some line →
          Contains line (lit "dm=") = false → lines'.get? i = some line) ∧
        ((10 : Byte) ∉ name ++ partUUID ++ hash ++ salt → Split written 10 = lines')) ∧
    ((∀ line ∈ Split content 10, ∀ p, Index line (lit "dm=") = some p →
        p + 4 < (toRunes (line.take (line.length - 1))).length) →
      ∃ written, appendDMEntryToGRUB readFile grubPath name partUUID hash salt oemFSSize4K
        = .ret (grubPath ++ lit "/grub.cfg", written)) ∧
    ((∀ line ∈ Split content 10, Contains line (lit "dm=") = false) →
      appendDMEntryToGRUB readFile grubPath name partUUID hash salt oemFSSize4K
        = .ret (grubPath ++ lit "/grub.cfg", content)) := by
  have hnl : lit "\n" = [10] := rfl
  refine ⟨?_, ?_, ?_⟩
  · intro path written hrun
    simp only [appendDMEntryToGRUB, hread] at hrun
    cases hp : patchLines (entryString name partUUID hash salt oemFSSize4K) (Split content 10) with
    | none => simp [hp] at hrun
    | some lines' =>
      simp only [hp, Outcome.ret.injEq, Prod.mk.injEq] at hrun
      obtain ⟨hlen, hget⟩ := patchLines_frame _ _ _ hp
      refine ⟨lines', hrun.2.symm, hlen, hget, ?_⟩
      intro hentry
      have hne : lines' ≠ [] := by
        intro e
        rw [e] at hlen
        exact Split_ne_nil content 10 (List.length_eq_zero.mp hlen.symm)
      rw [← hrun.2, hnl]
      exact Split_Join lines' 10 hne
        (patchLines_ne_newline _ _ _ (Split_no_sep content 10)
          (entryString_ne_newline _ _ _ _ _ hentry) hp)
  · intro hlong
    obtain ⟨lines', hp⟩ :=
      patchLines_isSome (entryString name partUUID hash salt oemFSSize4K) _ hlong
    exact ⟨Join lines' (lit "\n"), by simp only [appendDMEntryToGRUB, hread, hp]⟩
  · intro hno
    simp only [appendDMEntryToGRUB, hread, patchLines_no_marker _ _ hno, hnl, Join_Split]

set_option maxRecDepth 100000 in
/-- The sample grub.cfg, and a grub.cfg without any marker line. -/
theorem appendDMEntryToGRUB_frame_witness :
    (∃ lines', exGrubPatched = Join lines' (lit "\n") ∧
      lines'.length = (Split exGrub 10).length ∧
      (∀ (i : Nat) (line : GoString), (Split exGrub 10).get? i = some line →
          Contains line (lit "dm=") = false → lines'.get? i = some line) ∧
      ((10 : Byte) ∉ lit "oemroot" ++ lit "9db2ae75" ++ lit "d6b862d0" ++ lit "9cd7ba29" →
        Split exGrubPatched 10 = lines')) ∧
    (∃ written, appendDMEntryToGRUB (fun _ => some exGrub) (lit "/boot") (lit "oemroot")
        (lit "9db2ae75") (lit "d6b862d0") (lit "9cd7ba29") 100
      = .ret (lit "/boot" ++ lit "/grub.cfg", written)) ∧
    appendDMEntryToGRUB (fun _ => some (lit "set timeout=0\n")) (lit "/boot") (lit "oemroot")
        (lit "9db2ae75") (lit "d6b862d0") (lit "9cd7ba29") 100
      = .ret (lit "/boot/grub.cfg", lit "set timeout=0\n") :=
  ⟨(appendDMEntryToGRUB_frame (fun _ => some exGrub) (lit "/boot") (lit "oemroot")
      (lit "9db2ae75") (lit "d6b862d0") (lit "9cd7ba29") exGrub 100 rfl).1
      (lit "/boot/grub.cfg") exGrubPatched (by decide),
   (appendDMEntryToGRUB_frame (fun _ => some exGrub) (lit "/boot") (lit "oemroot")
      (lit "9db2ae75") (lit "d6b862d0") (lit "9cd7ba29") exGrub 100 rfl).2.1 (by decide),
   (appendDMEntryToGRUB_frame (fun _ => some (lit "set timeout=0\n")) (lit "/boot")
      (lit "oemroot") (lit "9db2ae75") (lit "d6b862d0") (lit "9cd7ba29")
      (lit "set timeout=0\n") 100 rfl).2.2 (by decide)⟩

/-! ### White space -/

theorem DecodeRune_two (b0 b1 : Byte) (t : GoString) (h0 : 0xC2 ≤ b0.val ∧ b0.val ≤ 0xDF)
    (h1 : isCont b1 = true) :
    DecodeRune (b0 :: b1 :: t) = (b0.val % 32 * 64 + b1.val % 64, 2) := by
  have : ¬ b0.val < 0x80 := by omega
  simp [DecodeRune, this, h0, h1]

theorem DecodeRune_three (b0 b1 b2 : Byte) (t : GoString) (h0 : 0xE0 ≤ b0.val ∧ b0.val ≤ 0xEF)
    (h1 : acceptLo b0 ≤ b1.val ∧ b1.val ≤ acceptHi b0 ∧ isCont b2 = true) :
    DecodeRune (b0 :: b1 :: b2 :: t) =
      (b0.val % 16 * 4096 + b1.val % 64 * 64 + b2.val % 64, 3) := by
  have a1 : ¬ b0.val < 0x80 := by omega
  have a2 : ¬ (0xC2 ≤ b0.val ∧ b0.val ≤ 0xDF) := by omega
  simp [DecodeRune, a1, a2, h0, h1]

theorem DecodeRune_four (b0 b1 b2 b3 : Byte) (t : GoString)
    (h0 : 0xF0 ≤ b0.val ∧ b0.val ≤ 0xF4)
    (h1 : acceptLo b0 ≤ b1.val ∧ b1.val ≤ acceptHi b0 ∧ isCont b2 = true ∧ isCont b3 = true) :
    DecodeRune (b0 :: b1 :: b2 :: b3 :: t) =
      (b0.val % 8 * 262144 + b1.val % 64 * 4096 + b2.val % 64 * 64 + b3.val % 64, 4) := by
  have a1 : ¬ b0.val < 0x80 := by omega
  have a2 : ¬ (0xC2 ≤ b0.val ∧ b0.val ≤ 0xDF) := by omega
  have a3 : ¬ (0xE0 ≤ b0.val ∧ b0.val ≤ 0xEF) := by omega
  simp [DecodeRune, a1, a2, a3, h0, h1]

/-- A decoding step that yields white space reads a complete encoding: bytes appended to the
string do not change it, and none of the bytes it reads is a colon. -/
theorem DecodeRune_space (b : Byte) (s x : GoString)
    (h : IsSpace (DecodeRune (b :: s)).1 = true) :
    DecodeRune (b :: s ++ x) = DecodeRune (b :: s) ∧
      (DecodeRune (b :: s)).2 ≤ (b :: s).length ∧
      (58 : Byte) ∉ (b :: s).take (DecodeRune (b :: s)).2 := by
  have hlo := acceptLo_spec b
  rcases DecodeRune_cases b s with h1 | h1 | ⟨b1, t, rfl, c1, c2, c3, h1⟩ |
    ⟨b1, b2, t, rfl, c1, c2, c3, c4, c5, h1⟩ | ⟨b1, b2, b3, t, rfl, c1, c2, c3, c4, c5, c6, h1⟩
  · rw [h1.2] at h ⊢
    refine ⟨DecodeRune_ascii b _ h1.1, by simp, ?_⟩
    simp only [List.take_succ_cons, List.take_zero, List.mem_singleton]
    intro e
    rw [← e] at h
    exact absurd h (by decide)
  · rw [h1.2] at h
    exact absurd h (by decide)
  · rw [h1]
    refine ⟨DecodeRune_two b b1 _ ⟨c1, c2⟩ c3, by simp, ?_⟩
    rw [isCont_iff] at c3
    simp only [List.take_succ_cons, List.take_zero, List.mem_cons, List.not_mem_nil, or_false,
      not_or]
    exact ⟨fun e => by rw [← e] at c1; revert c1; decide,
      fun e => by rw [← e] at c3; revert c3; decide⟩
  · rw [h1]
    refine ⟨DecodeRune_three b b1 b2 _ ⟨c1, c2⟩ ⟨c3, c4, c5⟩, by simp, ?_⟩
    rw [isCont_iff] at c5
    simp only [List.take_succ_cons, List.take_zero, List.mem_cons, List.not_mem_nil, or_false,
      not_or]
    refine ⟨fun e => by rw [← e] at c1; revert c1; decide, fun e => ?_,
      fun e => by rw [← e] at c5; revert c5; decide⟩
    rw [← e] at c3
    have : ((58 : Byte) : Nat) = 58 := rfl
    omega
  · rw [h1]
    refine ⟨DecodeRune_four b b1 b2 b3 _ ⟨c1, c2⟩ ⟨c3, c4, c5, c6⟩, by simp, ?_⟩
    rw [isCont_iff] at c5 c6
    simp only [List.take_succ_cons, List.take_zero, List.mem_cons, List.not_mem_nil, or_false,
      not_or]
    refine ⟨fun e => by rw [← e] at c1; revert c1; decide, fun e => ?_,
      fun e => by rw [← e] at c5; revert c5; decide,
      fun e => by rw [← e] at c6; revert c6; decide⟩
    rw [← e] at c3
    have : ((58 : Byte) : Nat) = 58 := rfl
    omega

theorem trimLeftSpace_id (fuel : Nat) (s : GoString)
    (h : s = [] ∨ IsSpace (DecodeRune s).1 = false) : trimLeftSpace fuel s = s := by
  cases fuel with
  | zero => rfl
  | succ fuel =>
    cases s with
    | nil => rfl
    | cons b s =>
      rcases h with h | h
      · cases h
      · simp [trimLeftSpace, h]

theorem trimRightSpace_id (fuel : Nat) (s : GoString)
    (h : s = [] ∨ IsSpace (DecodeLastRune s).1 = false) : trimRightSpace fuel s = s := by
  cases fuel with
  | zero => rfl
  | succ fuel =>
    cases s with
    | nil => rfl
    | cons b s =>
      rcases h with h | h
      · cases h
      · simp [trimRightSpace, h]

theorem trimLeftSpace_append (n : Nat) (h : GoString)
    (hh : h = [] ∨ IsSpace (DecodeRune h).1 = false) :
    ∀ (ws : GoString) (m : Nat), ws.length ≤ n → n ≤ m →
      (runesAux n ws).all IsSpace = true → trimLeftSpace m (ws ++ h) = h := by
  induction n with
  | zero =>
    intro ws m hlen _ _
    have : ws = [] := List.length_eq_zero.mp (by omega)
    subst this
    exact trimLeftSpace_id m h hh
  | succ n ih =>
    intro ws m hlen hm hall
    cases ws with
    | nil => exact trimLeftSpace_id m h hh
    | cons b s =>
      obtain ⟨m', rfl⟩ : ∃ m', m = m' + 1 := ⟨m - 1, by omega⟩
      simp only [runesAux, List.all_cons, Bool.and_eq_true] at hall
      obtain ⟨hd, hsize, _⟩ := DecodeRune_space b s h hall.1
      have hpos := DecodeRune_size_pos b s
      simp only [List.cons_append, trimLeftSpace]
      rw [← List.cons_append, hd, if_pos hall.1, List.drop_append_of_le_length hsize]
      exact ih _ m' (by simp only [List.length_drop, List.length_cons] at hlen ⊢; omega)
        (by omega) hall.2

theorem allSpace_no_colon (n : Nat) :
    ∀ ws : GoString, ws.length ≤ n → (runesAux n ws).all IsSpace = true → (58 : Byte) ∉ ws := by
  induction n with
  | zero =>
    intro ws hlen _
    have : ws = [] := List.length_eq_zero.mp (by omega)
    subst this
    simp
  | succ n ih =>
    intro ws hlen hall
    cases ws with
    | nil => simp
    | cons b s =>
      simp only [runesAux, List.all_cons, Bool.and_eq_true] at hall
      obtain ⟨_, hsize, hcol⟩ := DecodeRune_space b s [] hall.1
      have hpos := DecodeRune_size_pos b s
      have hrest := ih ((b :: s).drop (DecodeRune (b :: s)).2)
        (by simp only [List.length_drop, List.length_cons] at hlen ⊢; omega) hall.2
      intro hmem
      rw [← List.take_append_drop (DecodeRune (b :: s)).2 (b :: s), List.mem_append] at hmem
      rcases hmem with hmem | hmem
      · exact hcol hmem
      · exact hrest hmem

theorem TrimSpace_padded (ws h : GoString) (hws : allSpace ws = true)
    (hh : NoSurroundingSpace h) : TrimSpace (ws ++ h) = h := by
  unfold TrimSpace
  have h1 : h = [] ∨ IsSpace (DecodeRune h).1 = false := hh.imp id And.left
  have h2 : h = [] ∨ IsSpace (DecodeLastRune h).1 = false := hh.imp id And.right
  rw [trimLeftSpace_append ws.length h h1 ws _ (le_refl _) (by simp) hws]
  exact trimRightSpace_id _ h h2

/-! ### C8: a report of the expected shape -/

theorem field_after_label (label rest : GoString) (h1 : (58 : Byte) ∉ label)
    (h2 : (58 : Byte) ∉ rest) : goIndex (Split (label ++ 58 :: rest) 58) 1 = some rest := by
  rw [Split_append_sep label rest 58 h1, Split_not_mem rest 58 h2]
  rfl

/-- C8: for every report whose lines, split on newlines, end with the line `Salt:` followed
by white space and a value `salt`, the line `Root hash:` followed by white space and a value
`hash`, and a blank last line, where `salt` and `hash` hold no colon and no surrounding white
space, `veritysetup` succeeds and returns the root hash first and the salt second. -/
theorem veritysetup_parses_report (out : GoString) (pre : List GoString)
    (ws1 ws2 salt hash : GoString) (n : Nat)
    (hlines : Split out 10 =
      pre ++ [lit "Salt:" ++ ws1 ++ salt, lit "Root hash:" ++ ws2 ++ hash, []])
    (hws1 : allSpace ws1 = true) (hws2 : allSpace ws2 = true)
    (hsalt : (58 : Byte) ∉ salt) (hhash : (58 : Byte) ∉ hash)
    (hsalt' : NoSurroundingSpace salt) (hhash' : NoSurroundingSpace hash) :
    veritysetup (some out) n = .ret (hash, salt) := by
  have hroot : goIndex (Split out 10) (((Split out 10).length : Int) - 2)
      = some (lit "Root hash:" ++ ws2 ++ hash) := by
    rw [hlines, goIndex_append_left pre _ _ 1 (by simp; omega)]
    rfl
  have hsaltLine : goIndex (Split out 10) (((Split out 10).length : Int) - 3)
      = some (lit "Salt:" ++ ws1 ++ salt) := by
    rw [hlines, goIndex_append_left pre _ _ 0 (by simp)]
    rfl
  have hp1 : HasPrefix (lit "Root hash:" ++ ws2 ++ hash) (lit "Root hash:") = true := by
    rw [List.append_assoc]; exact HasPrefix_append _ _
  have hp2 : HasPrefix (lit "Salt:" ++ ws1 ++ salt) (lit "Salt:") = true := by
    rw [List.append_assoc]; exact HasPrefix_append _ _
  have hc1 : (58 : Byte) ∉ ws1 ++ salt := by
    simp only [List.mem_append, not_or]
    exact ⟨allSpace_no_colon _ ws1 (le_refl _) hws1, hsalt⟩
  have hc2 : (58 : Byte) ∉ ws2 ++ hash := by
    simp only [List.mem_append, not_or]
    exact ⟨allSpace_no_colon _ ws2 (le_refl _) hws2, hhash⟩
  have hf1 : goIndex (Split (lit "Root hash:" ++ ws2 ++ hash) 58) 1 = some (ws2 ++ hash) := by
    have : lit "Root hash:" ++ ws2 ++ hash = lit "Root hash" ++ 58 :: (ws2 ++ hash) := by
      rw [List.append_assoc]; rfl
    rw [this]
    exact field_after_label _ _ (by decide) hc2
  have hf2 : goIndex (Split (lit "Salt:" ++ ws1 ++ salt) 58) 1 = some (ws1 ++ salt) := by
    have : lit "Salt:" ++ ws1 ++ salt = lit "Salt" ++ 58 :: (ws1 ++ salt) := by
      rw [List.append_assoc]; rfl
    rw [this]
    exact field_after_label _ _ (by decide) hc1
  simp only [veritysetup, hroot, hsaltLine, hp1, hp2, hf1, hf2, Bool.not_true,
    Bool.false_eq_true, if_false, TrimSpace_padded _ _ hws1 hsalt',
    TrimSpace_padded _ _ hws2 hhash']

set_option maxRecDepth 100000 in
/-- The report of the comment in the source, with its tabs and blanks. -/
theorem veritysetup_parses_report_witness :
    veritysetup (some exReport) 2048 = .ret (lit "d6b862d0", lit "9cd7ba29") :=
  veritysetup_parses_report exReport
    [ lit "VERITY header information for /dev/sdb1", lit "UUID:            \t",
      lit "Hash type:       \t0", lit "Data blocks:     \t2048", lit "Data block size: \t4096",
      lit "Hash block size: \t4096", lit "Hash algorithm:  \tsha256" ]
    (lit "            \t") (lit "      \t") (lit "9cd7ba29") (lit "d6b862d0") 2048
    (by decide) (by decide) (by decide) (by decide) (by decide) (by decide) (by decide)

/-! ### C11: the line `getPartUUID` reads the identifier from -/

set_option maxRecDepth 100000 in
/-- C11: `getPartUUID` selects lines by `strings.HasPrefix(line, partName)`, so a line of
another device whose path starts with `partName` counts as a line of the partition. For
`/dev/sda1`, whose own line carries no `PARTUUID`, it returns the `PARTUUID` of `/dev/sda12`
where `PartitionUUIDNotFound` is due; and when the line of `/dev/sda11` stands before the
line of `/dev/sda1`, it returns the `PARTUUID` of `/dev/sda11`, not that of `/dev/sda1`. -/
theorem getPartUUID_takes_line_of_other_device :
    getPartUUID (some exBlkid) (lit "/dev/sda1")
      = .ret (lit "aaea6e5e-bc5f-2542-b19a-66c2daa4d5a8") ∧
    getPartUUID (some exBlkid) (lit "/dev/sda1") ≠ .fail .PartitionUUIDNotFound ∧
    getPartUUID (some exBlkidOrder) (lit "/dev/sda1")
      = .ret (lit "682ef1a5-f7f6-7d42-a407-5d8ad0430fc1") ∧
    getPartUUID (some exBlkidOrder) (lit "/dev/sda1")
      ≠ .ret (lit "00ce255b-db42-1e47-a62b-735c7a9a7397") ∧
    getPartUUID (some exBlkid) (lit "/dev/sda8")
      = .ret (lit "9db2ae75-98dc-5b4f-a38b-b3cb0b80b17f") := by
  refine ⟨by decide, by decide, by decide, by decide, by decide⟩

/-! ### C15: marker lines on which the rewrite of the count digit goes wrong -/

/-- C15: on a line that ends right after `dm=` the index `startPos + 4` lies outside the
runes of the line without its last byte, and the loop body panics. On a line with a
two-byte character before the marker the byte offset `startPos + 4` is used as an index into
the runes: the count digit `1` stays and the blank after it is overwritten. -/
theorem patchLine_faults_or_rewrites_elsewhere :
    Contains (lit "linux /vmlinuz dm=") (lit "dm=") = true ∧
    patchLine (lit "E\"") (lit "linux /vmlinuz dm=") = none ∧
    patchLine (lit "E\"") (lit "linux /vmlinuz dm=\"\"") = none ∧
    Index ([0xC3, 0xA9] ++ lit " dm=\"1 vroot\"") (lit "dm=") = some 3 ∧
    ([0xC3, 0xA9] ++ lit " dm=\"1 vroot\"").get? (3 + 4) = some 49 ∧
    patchLine (lit "E\"") ([0xC3, 0xA9] ++ lit " dm=\"1 vroot\"")
      = some ([0xC3, 0xA9] ++ lit " dm=\"12vroot,E\"") := by
  refine ⟨by decide, by decide, by decide, by decide, by decide, by decide⟩

/-! ### C14: `MinimizePartition` -/

theorem setEntry_split (t : PartitionTable) (name : GoString) (p : PartContent)
    (h : findEntry t name = some p) :
    ∃ pre attrs post, t = pre ++ TableLine.entry name p attrs :: post ∧
      ∀ q, setEntry t name q = pre ++ TableLine.entry name q attrs :: post := by
  induction t with
  | nil => simp [findEntry] at h
  | cons l rest ih =>
    cases l with
    | entry n p0 attrs =>
      by_cases hn : n = name
      · subst hn
        simp only [findEntry, if_true, Option.some.injEq] at h
        subst h
        exact ⟨[], attrs, rest, rfl, fun q => by simp [setEntry]⟩
      · simp only [findEntry, hn, if_false] at h
        obtain ⟨pre, a, post, h1, h2⟩ := ih h
        refine ⟨TableLine.entry n p0 attrs :: pre, a, post, by rw [h1]; rfl, fun q => ?_⟩
        simp only [setEntry, hn, if_false, h2 q, List.cons_append]
    | text raw =>
      simp only [findEntry] at h
      obtain ⟨pre, a, post, h1, h2⟩ := ih h
      refine ⟨TableLine.text raw :: pre, a, post, by rw [h1]; rfl, fun q => ?_⟩
      simp only [setEntry, h2 q, List.cons_append]

theorem MinimizePartition_eq (w : World) (disk : GoString) (n : Int) (t : PartitionTable)
    (hd : disk.length ≠ 0) (hn : 0 < n) (ht : w.tables disk = some t) :
    MinimizePartition w disk n =
      match findEntry t (disk ++ Itoa n) with
      | some p => .ok (w.write disk (setEntry t (disk ++ Itoa n) { p with Size := 4096 })
          (Op.minimize disk n), u64 (p.Start + 4096))
      | none => .error .PartitionNotFound := by
  have hg : ¬ (disk.length = 0 ∨ n ≤ 0) := by omega
  simp only [MinimizePartition, hg, if_false, PartNumIntToString, ReadPartitionTable, ht, bind,
    Except.bind, ParsePartitionTable_eq]
  cases findEntry t (disk ++ Itoa n) <;> rfl

/-- C14: `MinimizePartition(disk, n)` on a table that holds the entry named `disk` followed
by the partition number, with start sector `st`: the call succeeds, the table written back
differs from the table read only in the size of that entry, which becomes 4096 sectors
(2 MiB at 512 bytes per sector) while its start stays `st`, and the value returned is
`st + 4096`, a multiple of 8 whenever `st` is one. When the entry is absent, the disk name
is empty or `n ≤ 0`, the call returns an error, and with it no table to write. -/
theorem MinimizePartition_spec (w : World) (disk : GoString) (n : Int) (t : PartitionTable)
    (ht : w.tables disk = some t) :
    (∀ p : PartContent, disk ≠ [] → 0 < n → findEntry t (disk ++ Itoa n) = some p →
      p.Start + 4096 < 2 ^ 64 →
      ∃ pre attrs post,
        t = pre ++ TableLine.entry (disk ++ Itoa n) p attrs :: post ∧
        MinimizePartition w disk n = .ok
          (w.write disk
            (pre ++ TableLine.entry (disk ++ Itoa n) { Start := p.Start, Size := 4096 } attrs
              :: post)
            (Op.minimize disk n),
           p.Start + 4096) ∧
        (p.Start % 8 = 0 → (p.Start + 4096) % 8 = 0) ∧
        4096 * 512 = 2 * 2 ^ 20) ∧
    (findEntry t (disk ++ Itoa n) = none ∨ disk = [] ∨ n ≤ 0 →
      ∃ e, MinimizePartition w disk n = .error e) := by
  constructor
  · intro p hd hn hf hfit
    have hd' : disk.length ≠ 0 := fun e => hd (List.length_eq_zero.mp e)
    obtain ⟨pre, attrs, post, h1, h2⟩ := setEntry_split t _ p hf
    refine ⟨pre, attrs, post, h1, ?_, fun h => by omega, by norm_num⟩
    rw [MinimizePartition_eq w disk n t hd' hn ht, hf]
    simp only [h2, u64, Nat.mod_eq_of_lt hfit]
  · intro h
    by_cases hg : disk.length = 0 ∨ n ≤ 0
    · exact ⟨.InvalidArgument, by simp only [MinimizePartition, hg, if_true]⟩
    · rcases h with h | h | h
      · refine ⟨.PartitionNotFound, ?_⟩
        rw [MinimizePartition_eq w disk n t (by omega) (by omega) ht, h]
      · exact absurd (by simp [h]) hg
      · exact absurd (Or.inr h) hg

/-- The root partition of the sample table, an absent partition and a bad partition number. -/
theorem MinimizePartition_spec_witness :
    (∃ pre attrs post,
      exTable = pre ++ TableLine.entry (exDisk ++ Itoa 3) { Start := 20000, Size := 5000 } attrs
        :: post ∧
      MinimizePartition exWorld exDisk 3 = .ok
        (exWorld.write exDisk
          (pre ++ TableLine.entry (exDisk ++ Itoa 3) { Start := 20000, Size := 4096 } attrs
            :: post)
          (Op.minimize exDisk 3),
         20000 + 4096) ∧
      (20000 % 8 = 0 → (20000 + 4096) % 8 = 0) ∧
      4096 * 512 = 2 * 2 ^ 20) ∧
    (∃ e, MinimizePartition exWorld exDisk 5 = .error e) ∧
    (∃ e, MinimizePartition exWorld exDisk 0 = .error e) :=
  ⟨(MinimizePartition_spec exWorld exDisk 3 exTable (by decide)).1
      { Start := 20000, Size := 5000 } (by decide) (by decide) (by decide) (by decide),
   (MinimizePartition_spec exWorld exDisk 5 exTable (by decide)).2 (Or.inl (by decide)),
   (MinimizePartition_spec exWorld exDisk 0 exTable (by decide)).2
      (Or.inr (Or.inr (by decide)))⟩

/-! ### C12: `ExtendOEMPartition` without anything to extend -/

theorem MinimizePartition_ok (w w1 : World) (disk : GoString) (n : Int) (sp : Nat)
    (h : MinimizePartition w disk n = .ok (w1, sp)) :
    ∃ t p, w.tables disk = some t ∧ findEntry t (disk ++ Itoa n) = some p ∧
      w1 = w.write disk (setEntry t (disk ++ Itoa n) { p with Size := 4096 })
        (Op.minimize disk n) ∧
      sp = u64 (p.Start + 4096) := by
  by_cases hg : disk.length = 0 ∨ n ≤ 0
  · simp only [MinimizePartition, hg, if_true] at h
    cases h
  · cases ht : w.tables disk with
    | none =>
      simp only [MinimizePartition, hg, if_false, PartNumIntToString, ReadPartitionTable, ht,
        bind, Except.bind] at h
      cases h
    | some t =>
      rw [MinimizePartition_eq w disk n t (by omega) (by omega) ht] at h
      cases hf : findEntry t (disk ++ Itoa n) with
      | none => simp only [hf] at h; cases h
      | some p =>
        simp only [hf, Except.ok.injEq, Prod.mk.injEq] at h
        exact ⟨t, p, rfl, hf, h.1.symm, h.2.symm⟩

/-- On the branch `HandleDiskLayout` takes when it finds the requested size
not larger, by its comparison with the size in sectors shifted by 8, and without reclaiming,
the call returns success and leaves the world as it is. -/
theorem HandleDiskLayout_branch_keeps_world (w : World) (disk oemSize : GoString)
    (statePartNum oemPartNum : Int) (state oem : PartContent) (n : Nat)
    (hstate : readEntry w disk statePartNum = .ok state)
    (hoem : readEntry w disk oemPartNum = .ok oem)
    (hsize : ConvertSizeToBytes oemSize = .ok n)
    (hle : n ≤ u64 (oem.Size <<< 8)) :
    HandleDiskLayout w disk statePartNum oemPartNum oemSize false = .ok w := by
  obtain ⟨hd, hsn, t, ht, _⟩ := readEntry_ok _ _ _ _ hstate
  obtain ⟨_, hon, _⟩ := readEntry_ok _ _ _ _ hoem
  have hne : oemSize.length ≠ 0 := by
    intro e
    have : oemSize = [] := List.length_eq_zero.mp e
    subst this
    have hnil : ConvertSizeToBytes [] = .error .InvalidSizeFormat := by decide
    rw [hnil] at hsize
    cases hsize
  have hguard : ¬ (disk.length ≤ 0 ∨ statePartNum ≤ 0 ∨ oemPartNum ≤ 0 ∨ oemSize.length ≤ 0) := by
    omega
  have hrt : ReadPartitionTable w disk = .ok t := by simp [ReadPartitionTable, ht]
  simp only [HandleDiskLayout, hguard, if_false, hrt, hsize, ReadPartitionSize_eq _ _ _ _ hoem,
    ReadPartitionStart_eq _ _ _ _ hstate, hle, if_true, bind, Except.bind, Bool.false_eq_true,
    Bool.not_false]

/-- On the same branch with reclaiming, a successful call has minimized
partition 3 of `/dev/sda` and moved the state partition, nothing else, and the entry of an
OEM partition other than these two is as it was. -/
theorem HandleDiskLayout_branch_moves_state_only (w w' : World) (disk oemSize : GoString)
    (statePartNum oemPartNum : Int) (oem : PartContent) (n : Nat)
    (hoem : readEntry w disk oemPartNum = .ok oem)
    (hsize : ConvertSizeToBytes oemSize = .ok n)
    (hle : n ≤ u64 (oem.Size <<< 8))
    (hrun : HandleDiskLayout w disk statePartNum oemPartNum oemSize true = .ok w') :
    ∃ dest, w'.trace = w.trace ++
        [Op.minimize (lit "/dev/sda") 3, Op.move disk statePartNum dest] ∧
      (oemPartNum ≠ statePartNum → (disk ≠ lit "/dev/sda" ∨ oemPartNum ≠ 3) →
        readEntry w' disk oemPartNum = .ok oem) := by
  obtain ⟨hd, hon, t, ht, hfo⟩ := readEntry_ok _ _ _ _ hoem
  have hrt : ReadPartitionTable w disk = .ok t := by simp [ReadPartitionTable, ht]
  unfold HandleDiskLayout at hrun
  by_cases hguard : disk.length ≤ 0 ∨ statePartNum ≤ 0 ∨ oemPartNum ≤ 0 ∨ oemSize.length ≤ 0
  · rw [if_pos hguard] at hrun; cases hrun
  · have hsn : 0 < statePartNum := by omega
    simp only [hguard, if_false, hrt, hsize, ReadPartitionSize_eq _ _ _ _ hoem, if_true, bind,
      Except.bind] at hrun
    cases hmin : MinimizePartition w (lit "/dev/sda") 3 with
    | error e => simp only [hmin] at hrun; cases hrun
    | ok r =>
      obtain ⟨w1, sp⟩ := r
      obtain ⟨t3, p3, ht3, hf3, hw1, _⟩ := MinimizePartition_ok _ _ _ _ _ hmin
      simp only [hmin, hle, if_true, Bool.not_true, Bool.false_eq_true, if_false] at hrun
      cases hmv : MovePartition w1 disk statePartNum (FormatUint (u64 (sp + 1))) with
      | error e => simp only [hmv] at hrun; cases hrun
      | ok w2 =>
        obtain ⟨t1, p1, s1, ht1, hf1, _, hw2⟩ := MovePartition_ok _ _ _ _ _ hmv
        have hw2t : w2.tables disk = some
            (setEntry t1 (disk ++ Itoa statePartNum) { p1 with Start := s1 }) := by
          rw [hw2]; exact write_tables_same _ _ _ _
        simp only [hmv, ReadPartitionTable, hw2t, Except.ok.injEq] at hrun
        subst hrun
        refine ⟨FormatUint (u64 (sp + 1)), ?_, ?_⟩
        · rw [hw2, hw1]
          simp [World.write]
        · intro hne hroot
          have hname : disk ++ Itoa oemPartNum ≠ disk ++ Itoa statePartNum :=
            entry_name_ne disk _ _ hon hsn hne
          apply readEntry_of_find _ _ _ _ _ hd hon hw2t
          rw [findEntry_setEntry_other _ _ _ _ hname]
          by_cases hdisk : disk = lit "/dev/sda"
          · have h3 : oemPartNum ≠ 3 := hroot.resolve_left (fun hc => hc hdisk)
            subst hdisk
            rw [hw1, write_tables_same] at ht1
            cases ht1
            rw [ht] at ht3
            cases ht3
            rw [findEntry_setEntry_other _ _ _ _
              (entry_name_ne _ _ _ hon (by decide) h3)]
            exact hfo
          · rw [hw1] at ht1
            simp only [World.write, hdisk, if_false] at ht1
            rw [ht] at ht1
            cases ht1
            exact hfo

/-- C13: the OEM partition of the sample table holds 4096 sectors, 2097152 bytes. A request
of 1536 KiB is not larger, yet `HandleDiskLayout` compares it with 4096 * 256 bytes and
resizes: without reclaiming it moves both partitions and extends the OEM partition, and with
reclaiming it moves and extends the OEM partition as well, whose start and size change. -/
theorem HandleDiskLayout_resizes_when_not_larger :
    readEntry exWorld exDisk 8 = .ok { Start := 4096, Size := 4096 } ∧
    ConvertSizeToBytes (lit "1536K") = .ok 1572864 ∧
    1572864 ≤ 4096 * 512 ∧
    (worldAfter exWorld (HandleDiskLayout exWorld exDisk 1 8 (lit "1536K") false)).trace =
      [ Op.move exDisk 1 (lit "14336"), Op.move exDisk 8 (lit "8192"),
        Op.extend exDisk 8 14335 ] ∧
    (worldAfter exWorld (HandleDiskLayout exWorld exDisk 1 8 (lit "1536K") true)).trace =
      [ Op.minimize (lit "/dev/sda") 3, Op.move exDisk 1 (lit "30241"),
        Op.move exDisk 8 (lit "24097"), Op.extend exDisk 8 30240 ] ∧
    readEntry (worldAfter exWorld (HandleDiskLayout exWorld exDisk 1 8 (lit "1536K") true))
      exDisk 8 = .ok { Start := 24097, Size := 6144 } := by
  refine ⟨by decide, by decide, by decide, by decide, by decide, by decide⟩

end CosCustomizer
